import Mathlib

/-!
Detective Quest: clue tree and suspect table.

A shallow embedding of `algoritmos_avancados.c`: the binary search tree of
clues (`Pista`), the chained hash table of suspects (`Suspeito`,
`hashTable`) with the query `suspeitoMaisProvavel`, the map of rooms
(`Sala`), the exploration loop and the manual entry of the menu.

Conventions of the embedding.

* A C string is the list of its bytes before the terminating NUL, each byte
  an `unsigned char` value in `1..255`.
* Heap structures owned through a single pointer (tree children, bucket
  chains) are values; a function that updates such a structure in place
  returns the updated value.
* `malloc`/`realloc` are taken to succeed, and `size_t` is wide enough for
  the byte sizes passed to them.
* An `int` is 32 bits wide. The counters `contPistas` and `capPistas` are
  natural numbers here; an operation whose `int` arithmetic would overflow
  has undefined behaviour in C and returns `none`, and so does everything
  that runs it.
* Output written with `printf` is returned as the list of printed items.
-/

namespace DetectiveQuest

/-! ## C strings -/

/-- A byte of a C string: an `unsigned char` value other than the terminating NUL. -/
abbrev CByte := { n : Nat // 0 < n ∧ n < 256 }

/-- A C string: the bytes that precede its terminating NUL. -/
abbrev CStr := List CByte

/-- The C string stored in a buffer holding the given bytes followed by a NUL:
reading stops at the first byte that is 0 (bytes are taken modulo 256). -/
def ofBytes : List Nat → CStr
  | [] => []
  | n :: rest =>
    if h : 0 < n % 256 then ⟨n % 256, h, Nat.mod_lt n (by decide)⟩ :: ofBytes rest else []

/-- Library function `strcmp`: the difference of the first pair of bytes that differ, read as
`unsigned char`, where a string that has ended supplies its terminator 0; it is 0 when no
pair differs. The callers only look at the sign. -/
def strcmp : CStr → CStr → Int
  | [], [] => 0
  | [], b :: _ => 0 - (b.val : Int)
  | a :: _, [] => (a.val : Int)
  | a :: as, b :: bs => if a.val = b.val then strcmp as bs else (a.val : Int) - (b.val : Int)

/-! ## Clue tree (`Pista`) -/

/-- The `struct Pista`: a null pointer is `nil`, a node owns its text and two subtrees. -/
inductive Pista where
  | nil : Pista
  | node (texto : CStr) (esq : Pista) (dir : Pista) : Pista
  deriving DecidableEq, Repr

/-- The function `criarPista`: a fresh node without children. -/
def criarPista (texto : CStr) : Pista := Pista.node texto Pista.nil Pista.nil

/-- The function `inserirPistaBST`: descend by the sign of `strcmp (texto, raiz->texto)`; an equal
text leaves the tree as it is. -/
def inserirPistaBST : Pista → CStr → Pista
  | Pista.nil, texto => criarPista texto
  | Pista.node t e d, texto =>
    if strcmp texto t < 0 then Pista.node t (inserirPistaBST e texto) d
    else if strcmp texto t > 0 then Pista.node t e (inserirPistaBST d texto)
    else Pista.node t e d

/-- The function `emOrdemPistas`: the texts in the order their lines are printed
(left subtree, node, right subtree). -/
def emOrdemPistas : Pista → List CStr
  | Pista.nil => []
  | Pista.node t e d => emOrdemPistas e ++ t :: emOrdemPistas d

/-- Inserting a sequence of texts one after another, starting from a given tree. -/
def inserirPistas (raiz : Pista) (textos : List CStr) : Pista :=
  textos.foldl inserirPistaBST raiz

/-- The texts held by the nodes of a tree, one item per node (node, left subtree, right
subtree). -/
def Pista.textos : Pista → List CStr
  | Pista.nil => []
  | Pista.node t e d => t :: (Pista.textos e ++ Pista.textos d)

/-- The search-tree invariant: at every node the texts of the left subtree compare strictly
below the node's text and those of the right subtree strictly above it. -/
def Pista.ordenada : Pista → Prop
  | Pista.nil => True
  | Pista.node t e d =>
    (∀ y ∈ Pista.textos e, strcmp y t < 0) ∧ (∀ y ∈ Pista.textos d, strcmp y t > 0) ∧
      Pista.ordenada e ∧ Pista.ordenada d

/-- The search-tree invariant can be checked by evaluation. -/
def Pista.decOrdenada : (t : Pista) → Decidable (Pista.ordenada t)
  | Pista.nil => isTrue trivial
  | Pista.node t e d =>
    have := Pista.decOrdenada e
    have := Pista.decOrdenada d
    by unfold Pista.ordenada; infer_instance

instance (t : Pista) : Decidable (Pista.ordenada t) := Pista.decOrdenada t

/-- Strict order of texts by the sign of `strcmp`. -/
def cstrLt (a b : CStr) : Prop := strcmp a b < 0

/-- Weak order of texts by the sign of `strcmp`. -/
def cstrLe (a b : CStr) : Prop := strcmp a b ≤ 0

instance : DecidableRel cstrLt := fun a b => by unfold cstrLt; infer_instance

instance : DecidableRel cstrLe := fun a b => by unfold cstrLe; infer_instance

/-- The text "Carta rasgada encontrada". -/
def sCarta : CStr := ofBytes
  [67, 97, 114, 116, 97, 32, 114, 97, 115, 103, 97, 100, 97, 32,
   101, 110, 99, 111, 110, 116, 114, 97, 100, 97]

/-! ## Suspect table -/

/-- The constant `HASH_SIZE`: 26 letters and one bucket for everything else. -/
def HASH_SIZE : Nat := 27

/-- The value of a `char` holding the byte `b`, widened to `int`. Whether `char` is signed is
left to the platform: with a signed `char` the bytes from 128 up are negative. -/
def charDe (comSinal : Bool) (b : CByte) : Int :=
  if comSinal = true ∧ 128 ≤ b.val then (b.val : Int) - 256 else (b.val : Int)

/-- The function `hashNome`, for a non-null name: 65 and 90 are `'A'` and `'Z'`, 97 and 122
are `'a'` and `'z'`. The remainder is taken of a non-negative number. -/
def hashNome (comSinal : Bool) : CStr → Nat
  | [] => HASH_SIZE - 1
  | b :: _ =>
    let c := charDe comSinal b
    let c := if c ≥ 65 ∧ c ≤ 90 then c - 65 + 97 else c
    if c ≥ 97 ∧ c ≤ 122 then ((c - 97) % ((HASH_SIZE : Int) - 1)).toNat else HASH_SIZE - 1

/-- An ASCII letter: `'A'..'Z'` (65..90) or `'a'..'z'` (97..122). -/
def ehLetra (b : CByte) : Prop := (65 ≤ b.val ∧ b.val ≤ 90) ∨ (97 ≤ b.val ∧ b.val ≤ 122)

instance (b : CByte) : Decidable (ehLetra b) := by unfold ehLetra; infer_instance

/-- The byte with an upper-case ASCII letter folded to lower case. -/
def paraMinuscula (b : CByte) : Nat := if 65 ≤ b.val ∧ b.val ≤ 90 then b.val + 32 else b.val

/-- The `struct Suspeito` without its `prox` link (a chain is a list of entries). `pistas` is
the allocated array, one item per slot, `none` for a slot that was never written. -/
structure Suspeito where
  nome : CStr
  pistas : List (Option CStr)
  contPistas : Nat
  capPistas : Nat
  deriving DecidableEq, Repr

/-- A bucket chain, from its head along the `prox` links. -/
abbrev Cadeia := List Suspeito

/-- The global array `hashTable`: `HASH_SIZE` bucket chains. -/
abbrev HashTable := { l : List Cadeia // l.length = HASH_SIZE }

/-- The table as `main` initialises it: every bucket is the null chain. -/
def tabelaVazia : HashTable := ⟨List.replicate HASH_SIZE [], List.length_replicate _ _⟩

/-- The chain `hashTable[i]`. -/
def HashTable.bucket (T : HashTable) (i : Nat) : Cadeia := T.val.getD i []

/-- The assignment `hashTable[i] = c`. -/
def HashTable.comBucket (T : HashTable) (i : Nat) (c : Cadeia) : HashTable :=
  ⟨T.val.set i c, by rw [List.length_set]; exact T.property⟩

/-- The function `buscarSuspeitoBucket`: the position in the chain of the first entry whose
name compares equal, which stands for the pointer returned; `none` is the null pointer. -/
def buscarSuspeitoBucket : Cadeia → CStr → Option Nat
  | [], _ => none
  | p :: resto, nome =>
    if strcmp p.nome nome = 0 then some 0
    else (buscarSuspeitoBucket resto nome).map (fun k => k + 1)

/-- The function `criarSuspeito`: no clue yet, an array of two slots. -/
def criarSuspeito (nome : CStr) : Suspeito :=
  { nome := nome, pistas := List.replicate 2 none, contPistas := 0, capPistas := 2 }

/-- The call `realloc (pistas, n slots)`: the old slots are kept, up to the new size, and
the new ones are unwritten. -/
def realocar (pistas : List (Option CStr)) (n : Nat) : List (Option CStr) :=
  pistas.take n ++ List.replicate (n - pistas.length) none

/-- The largest value of an `int`. -/
def INT_MAX : Nat := 2147483647

/-- The first half of `adicionarPistaASuspeito`: when the array is full, `capPistas *= 2`
and `realloc`. The product is an `int`: when it does not fit, the behaviour is undefined and
the result is `none`. -/
def garantirCapacidade (s : Suspeito) : Option Suspeito :=
  if s.contPistas ≥ s.capPistas then
    if s.capPistas * 2 ≤ INT_MAX then
      some { s with capPistas := s.capPistas * 2,
                    pistas := realocar s.pistas (s.capPistas * 2) }
    else none
  else some s

/-- The function `adicionarPistaASuspeito`, for a non-null suspect: double the array when it
is full, then write the clue at index `contPistas` and increment the count, an `int` too.
A write outside the array would be lost here. -/
def adicionarPistaASuspeito (s : Suspeito) (pista : CStr) : Option Suspeito :=
  match garantirCapacidade s with
  | none => none
  | some s1 =>
    if s1.contPistas + 1 ≤ INT_MAX then
      some { s1 with pistas := s1.pistas.set s1.contPistas (some pista),
                     contPistas := s1.contPistas + 1 }
    else none

/-- Update in place of the entry at position `k` of a chain, by an operation that may have
no defined result. -/
def Cadeia.atualizar (f : Suspeito → Option Suspeito) : Cadeia → Nat → Option Cadeia
  | [], _ => some []
  | p :: resto, 0 => (f p).map (fun p1 => p1 :: resto)
  | p :: resto, k + 1 => (Cadeia.atualizar f resto k).map (fun r1 => p :: r1)

/-- The function `inserirHash` on the table `T`: look the name up in its bucket; when absent
link a new entry at the head of the chain; then add the clue to the entry. -/
def inserirHash (comSinal : Bool) (T : HashTable) (pista suspeitoNome : CStr) :
    Option HashTable :=
  let idx := hashNome comSinal suspeitoNome
  let bucket := T.bucket idx
  match buscarSuspeitoBucket bucket suspeitoNome with
  | some k =>
    (Cadeia.atualizar (fun s => adicionarPistaASuspeito s pista) bucket k).map
      (fun cad => T.comBucket idx cad)
  | none =>
    (Cadeia.atualizar (fun s => adicionarPistaASuspeito s pista)
      (criarSuspeito suspeitoNome :: bucket) 0).map (fun cad => T.comBucket idx cad)

/-- The calls `inserirHash (pista, nome)` of a list, made in order from the table `T`. -/
def inserirHashDesde (comSinal : Bool) : HashTable → List (CStr × CStr) → Option HashTable
  | T, [] => some T
  | T, c :: resto =>
    match inserirHash comSinal T c.1 c.2 with
    | none => none
    | some T1 => inserirHashDesde comSinal T1 resto

/-- The calls `inserirHash (pista, nome)` of a list, made in order from the empty table. -/
def inserirHashSeq (comSinal : Bool) (chamadas : List (CStr × CStr)) : Option HashTable :=
  inserirHashDesde comSinal tabelaVazia chamadas

/-- A pointer to an entry of the table: the bucket index and the position in its chain. -/
abbrev Ref := Nat × Nat

/-- One test of the scan of `suspeitoMaisProvavel` at the entry `p` that `r` points to:
`if (!best || p->contPistas > best->contPistas) best = p`. -/
def melhorDe (best : Option (Ref × Suspeito)) (r : Ref) (p : Suspeito) :
    Option (Ref × Suspeito) :=
  match best with
  | none => some (r, p)
  | some b => if p.contPistas > b.2.contPistas then some (r, p) else some b

/-- The inner loop of `suspeitoMaisProvavel` over the rest of chain `i` from position `j`. -/
def varrerCadeia (i : Nat) : Cadeia → Nat → Option (Ref × Suspeito) → Option (Ref × Suspeito)
  | [], _, best => best
  | p :: resto, j, best => varrerCadeia i resto (j + 1) (melhorDe best (i, j) p)

/-- The function `suspeitoMaisProvavel`: scan buckets `0 .. HASH_SIZE - 1`, each chain from
its head. The result is the pointer `best` together with the entry it points to. -/
def suspeitoMaisProvavel (T : HashTable) : Option (Ref × Suspeito) :=
  (List.range HASH_SIZE).foldl (fun best i => varrerCadeia i (T.bucket i) 0 best) none

/-- The entry a pointer designates, if any. -/
def HashTable.entrada (T : HashTable) (r : Ref) : Option Suspeito := (T.bucket r.1)[r.2]?

/-- The clue texts of the calls made with the name `nome`, in call order. -/
def pistasDe (chamadas : List (CStr × CStr)) (nome : CStr) : List CStr :=
  (chamadas.filter (fun c => decide (c.2 = nome))).map (fun c => c.1)

/-- The array of a suspect is sound and its first `contPistas` slots hold the texts `L`. -/
def Suspeito.guarda (s : Suspeito) (L : List CStr) : Prop :=
  0 < s.capPistas ∧ s.contPistas ≤ s.capPistas ∧ s.pistas.length = s.capPistas ∧
    s.pistas.take s.contPistas = L.map some

/-- The state of the table after the calls `chamadas`: every entry sits in the bucket of its
name, was named by a call and holds the clues of the calls with its name; no chain repeats
a name; every name of a call has its entry. -/
def tabelaOk (comSinal : Bool) (chamadas : List (CStr × CStr)) (T : HashTable) : Prop :=
  (∀ i, ∀ s ∈ T.bucket i, hashNome comSinal s.nome = i ∧
      s.nome ∈ chamadas.map (fun c => c.2) ∧ s.guarda (pistasDe chamadas s.nome)) ∧
    (∀ i, ((T.bucket i).map (fun s => s.nome)).Nodup) ∧
    (∀ n ∈ chamadas.map (fun c => c.2), ∃ s ∈ T.bucket (hashNome comSinal n), s.nome = n)

/-- The entries of chain `i` from position `j` on, each with the pointer to it, head first. -/
def Cadeia.refs (i : Nat) : Cadeia → Nat → List (Ref × Suspeito)
  | [], _ => []
  | p :: resto, j => ((i, j), p) :: Cadeia.refs i resto (j + 1)

/-- The entries of the table with their pointers, buckets in index order and each chain from
its head. -/
def HashTable.entradas (T : HashTable) : List (Ref × Suspeito) :=
  (List.range HASH_SIZE).flatMap (fun i => Cadeia.refs i (T.bucket i) 0)

/-- The pointer `a` comes before the pointer `b` in a scan by bucket index, then by position
in the chain. -/
def Ref.antes (a b : Ref) : Prop := a.1 < b.1 ∨ (a.1 = b.1 ∧ a.2 < b.2)

instance (a b : Ref) : Decidable (Ref.antes a b) := by unfold Ref.antes; infer_instance

/-- The name "Joaquim". -/
def sJoaquim : CStr := ofBytes [74, 111, 97, 113, 117, 105, 109]

/-- The name "Maria". -/
def sMaria : CStr := ofBytes [77, 97, 114, 105, 97]

/-- The name "Marta". -/
def sMarta : CStr := ofBytes [77, 97, 114, 116, 97]

/-- The text "Livros deslocados". -/
def sLivros : CStr := ofBytes
  [76, 105, 118, 114, 111, 115, 32, 100, 101, 115, 108, 111, 99, 97, 100, 111, 115]

/-- The text "Pegadas úmidas na cozinha" in UTF-8 (the letter ú is the bytes 195, 186). -/
def sPegadasCozinha : CStr := ofBytes
  [80, 101, 103, 97, 100, 97, 115, 32, 195, 186, 109, 105, 100, 97, 115, 32, 110, 97, 32,
   99, 111, 122, 105, 110, 104, 97]

/-- The text "Pegadas na entrada". -/
def sPegadasEntrada : CStr := ofBytes
  [80, 101, 103, 97, 100, 97, 115, 32, 110, 97, 32, 101, 110, 116, 114, 97, 100, 97]

/-- The name "7zz". -/
def s7zz : CStr := ofBytes [55, 122, 122]

/-- Two suspects of the same bucket with one clue each: Maria is created first, Marta second. -/
def empate : List (CStr × CStr) := [(sLivros, sMaria), (sPegadasEntrada, sMarta)]

/-- The scenario of the specification: one clue for Joaquim, two for Maria. -/
def cenario : List (CStr × CStr) :=
  [(sLivros, sJoaquim), (sPegadasCozinha, sMaria), (sPegadasEntrada, sMaria)]

/-- The table after the calls of `empate`: Marta at the head of bucket 12, then Maria. -/
def tabelaEmpate : HashTable :=
  tabelaVazia.comBucket 12
    [⟨sMarta, [some sPegadasEntrada, none], 1, 2⟩, ⟨sMaria, [some sLivros, none], 1, 2⟩]

/-- The table after the calls of `cenario`: Joaquim in bucket 9, Maria in bucket 12. -/
def tabelaCenario : HashTable :=
  (tabelaVazia.comBucket 9 [⟨sJoaquim, [some sLivros, none], 1, 2⟩]).comBucket 12
    [⟨sMaria, [some sPegadasCozinha, some sPegadasEntrada], 2, 2⟩]

/-- The entry a name has after its first clue: `criarSuspeito` followed by
`adicionarPistaASuspeito`. -/
def Suspeito.novo (nome pista : CStr) : Suspeito :=
  { nome := nome, pistas := [some pista, none], contPistas := 1, capPistas := 2 }

/-! ## Creation order and the listing of the table -/

/-- The moment the entry of a name is created: the position, in the list of calls, of the
first call made with that name (the length of the list when there is none). -/
def criadoEm (chamadas : List (CStr × CStr)) (nome : CStr) : Nat :=
  chamadas.findIdx (fun c => decide (c.2 = nome))

/-- The tie-break rule "earliest created wins" for the table built by the calls: the entry
returned was created no later than any entry with the same clue count. -/
def DesempatePorCriacao (comSinal : Bool) (chamadas : List (CStr × CStr)) : Prop :=
  ∀ T, inserirHashSeq comSinal chamadas = some T →
    ∀ r s, suspeitoMaisProvavel T = some (r, s) →
      ∀ r1 s1, T.entrada r1 = some s1 →
        s1.contPistas = s.contPistas → criadoEm chamadas s.nome ≤ criadoEm chamadas s1.nome

/-- What `listarAssociacoes` prints for one entry: the name, the count, and the slots
`pistas[0] .. pistas[contPistas - 1]` in index order. -/
def linhaDe (p : Suspeito) : CStr × Nat × List (Option CStr) :=
  (p.nome, p.contPistas, (List.range p.contPistas).map (fun j => p.pistas.getD j none))

/-- The inner `while` loop of `listarAssociacoes` over one chain. -/
def listarCadeia : Cadeia → List (CStr × Nat × List (Option CStr))
  | [] => []
  | p :: resto => linhaDe p :: listarCadeia resto

/-- The function `listarAssociacoes`: the items printed, buckets `0 .. HASH_SIZE - 1`. -/
def listarAssociacoes (T : HashTable) : List (CStr × Nat × List (Option CStr)) :=
  (List.range HASH_SIZE).flatMap (fun i => listarCadeia (T.bucket i))

/-- Every chain runs from the entry created last to the entry created first. -/
def porCriacao (chamadas : List (CStr × CStr)) (T : HashTable) : Prop :=
  ∀ i, (T.bucket i).Pairwise
    (fun a b => criadoEm chamadas b.nome < criadoEm chamadas a.nome)

/-- A well-formed table: every entry sits in the bucket of its name, its array has
`capPistas` slots of which the first `contPistas` are written, and no chain holds the same
name twice. -/
def HashTable.bemFormada (comSinal : Bool) (T : HashTable) : Prop :=
  (∀ i, ∀ s ∈ T.bucket i, hashNome comSinal s.nome = i ∧ ∃ L, s.guarda L) ∧
    (∀ i, ((T.bucket i).map (fun s => s.nome)).Nodup)

/-- The clue list of a name as "exactly the clues of the calls made with it, whatever the
number of calls": the calls have a resulting table, and in it the name has an entry that
holds those clues in call order, `contPistas` being their number. -/
def ListaDePistasComoDita (comSinal : Bool) (chamadas : List (CStr × CStr)) (nome : CStr) :
    Prop :=
  ∃ T, inserirHashSeq comSinal chamadas = some T ∧
    ∃ r s, T.entrada r = some s ∧ s.nome = nome ∧
      s.pistas.take s.contPistas = (pistasDe chamadas nome).map some ∧
      s.contPistas = (pistasDe chamadas nome).length

/-- Growth as "every call of `inserirHash` on a well-formed table adds one clue": the call
has a resulting table, where every entry is still present under its name, unchanged when
the name is another one, and with the clue appended when the name is the given one. -/
def CresceComoDito (comSinal : Bool) (T : HashTable) (pista nome : CStr) : Prop :=
  ∃ T1, inserirHash comSinal T pista nome = some T1 ∧
    ∀ r s, T.entrada r = some s →
      ∃ r1 s1, T1.entrada r1 = some s1 ∧ s1.nome = s.nome ∧
        (s.nome ≠ nome → s1 = s) ∧
        (s.nome = nome →
          s1.pistas.take s1.contPistas = s.pistas.take s.contPistas ++ [some pista] ∧
            s1.contPistas = s.contPistas + 1)

/-- Array safety as "`adicionarPistaASuspeito` always writes below the capacity": for every
entry of the table built by the calls the doubling step has a result, and in it the write
index `contPistas` is strictly below `capPistas`. -/
def EscritaSempreDentro (comSinal : Bool) (chamadas : List (CStr × CStr)) : Prop :=
  ∀ T, inserirHashSeq comSinal chamadas = some T →
    ∀ r s, T.entrada r = some s →
      ∃ s1, garantirCapacidade s = some s1 ∧ s1.contPistas < s1.capPistas

/-! ## Rooms and the game -/

/-- The `struct Sala`: a null pointer is `nil`, a room owns its name and two neighbours. -/
inductive Sala where
  | nil : Sala
  | node (nome : CStr) (esquerda : Sala) (direita : Sala) : Sala
  deriving DecidableEq, Repr

/-- The field `nome` of a room. -/
def Sala.nomeDe : Sala → CStr
  | Sala.nil => []
  | Sala.node n _ _ => n

/-- The field `esquerda` of a room. -/
def Sala.esq : Sala → Sala
  | Sala.nil => Sala.nil
  | Sala.node _ e _ => e

/-- The field `direita` of a room. -/
def Sala.dir : Sala → Sala
  | Sala.nil => Sala.nil
  | Sala.node _ _ d => d

/-- The function `criarSala`: `strncpy` keeps at most 63 bytes of the name. -/
def criarSala (nome : CStr) : Sala := Sala.node (nome.take 63) Sala.nil Sala.nil

/-- The function `conectarSalas`: both links of `pai` are overwritten; nothing for a null
`pai`. -/
def conectarSalas (pai esq dir : Sala) : Sala :=
  match pai with
  | Sala.nil => Sala.nil
  | Sala.node n _ _ => Sala.node n esq dir

/-- The room name "Hall de Entrada". -/
def sHall : CStr := ofBytes
  [72, 97, 108, 108, 32, 100, 101, 32, 69, 110, 116, 114, 97, 100, 97]

/-- The room name "Biblioteca". -/
def sBiblioteca : CStr := ofBytes [66, 105, 98, 108, 105, 111, 116, 101, 99, 97]

/-- The room name "Cozinha". -/
def sCozinha : CStr := ofBytes [67, 111, 122, 105, 110, 104, 97]

/-- The room name "Sotao". -/
def sSotao : CStr := ofBytes [83, 111, 116, 97, 111]

/-- The room name "Sótão" in UTF-8. -/
def sSotaoAcento : CStr := ofBytes [83, 195, 179, 116, 195, 163, 111]

/-- The room name "Escritorio". -/
def sEscritorio : CStr := ofBytes [69, 115, 99, 114, 105, 116, 111, 114, 105, 111]

/-- The room name "Jardim". -/
def sJardim : CStr := ofBytes [74, 97, 114, 100, 105, 109]

/-- The name "Carlos". -/
def sCarlos : CStr := ofBytes [67, 97, 114, 108, 111, 115]

/-- The name "Desconhecido". -/
def sDesconhecido : CStr := ofBytes [68, 101, 115, 99, 111, 110, 104, 101, 99, 105, 100, 111]

/-- The map built by `main`. The rooms are values here, so the two lower `conectarSalas`
calls come before the one of the hall; with pointers the order in `main` gives the same
map. -/
def mansao : Sala :=
  conectarSalas (criarSala sHall)
    (conectarSalas (criarSala sBiblioteca) (criarSala sSotao) (criarSala sEscritorio))
    (conectarSalas (criarSala sCozinha) (criarSala sJardim) Sala.nil)

/-- The `printf` loop of `printarMapaRec`: two spaces per level. -/
def recuo (depth : Nat) : CStr := (List.replicate depth (ofBytes [32, 32])).flatten

/-- The function `printarMapaRec`: the lines printed, without their newline. -/
def printarMapaRec : Sala → Nat → List CStr
  | Sala.nil, _ => []
  | Sala.node n e d, depth =>
    (recuo depth ++ ofBytes [45, 32] ++ n) ::
      (printarMapaRec e (depth + 1) ++ printarMapaRec d (depth + 1))

/-- The rooms of a tree in preorder (room, left subtree, right subtree), each with its depth
below the given starting depth. -/
def Sala.preordem : Sala → Nat → List (Nat × CStr)
  | Sala.nil, _ => []
  | Sala.node n e d, k => (k, n) :: (Sala.preordem e (k + 1) ++ Sala.preordem d (k + 1))

/-- Number of rooms of a tree. -/
def Sala.numSalas : Sala → Nat
  | Sala.nil => 0
  | Sala.node _ e d => 1 + Sala.numSalas e + Sala.numSalas d

/-- The two globals of the game: the clue tree `raizPistas` and the table `hashTable`. -/
structure Jogo where
  raizPistas : Pista
  hashTable : HashTable
  deriving DecidableEq

/-- The state when `main` enters the menu: no clue, every bucket empty. -/
def jogoInicial : Jogo := { raizPistas := Pista.nil, hashTable := tabelaVazia }

/-- The pair of calls every discovery makes: `inserirPistaBST` then `inserirHash`. -/
def registrar (comSinal : Bool) (st : Jogo) (pista suspeito : CStr) : Option Jogo :=
  (inserirHash comSinal st.hashTable pista suspeito).map
    (fun T => { raizPistas := inserirPistaBST st.raizPistas pista, hashTable := T })

/-- The function `associarPistaSuspeito_porSala`. -/
def associarPistaSuspeito_porSala (comSinal : Bool) (salaNome : CStr) (st : Jogo) :
    Option Jogo :=
  if strcmp salaNome sBiblioteca = 0 then registrar comSinal st sLivros sJoaquim
  else if strcmp salaNome sCozinha = 0 then registrar comSinal st sPegadasCozinha sMaria
  else if strcmp salaNome sSotao = 0 ∨ strcmp salaNome sSotaoAcento = 0 then
    registrar comSinal st sCarta sCarlos
  else if strcmp salaNome sHall = 0 then registrar comSinal st sPegadasEntrada sMaria
  else some st

/-- The outcome of the `if` chain at the end of one iteration of `explorarSalas`. -/
inductive Movimento where
  | ir (destino : Sala) : Movimento
  | sair : Movimento
  | invalido : Movimento
  deriving DecidableEq, Repr

/-- The `if` chain of `explorarSalas` on the byte `escolha[0]`: 101, 100 and 115 are `'e'`,
`'d'` and `'s'`; `invalido` is the branch that prints the message and leaves `pos` alone. -/
def decidirMovimento (pos : Sala) (escolha : Nat) : Movimento :=
  if escolha = 101 ∧ pos.esq ≠ Sala.nil then Movimento.ir pos.esq
  else if escolha = 100 ∧ pos.dir ≠ Sala.nil then Movimento.ir pos.dir
  else if escolha = 115 then Movimento.sair
  else Movimento.invalido

/-- The `while (1)` loop of `explorarSalas` at the room `pos`. `escolhas` holds `escolha[0]`
of each `fgets` that succeeds; when it is exhausted `fgets` fails and the function returns.
Every iteration first registers the clue of the room it is in. -/
def explorarLaco (comSinal : Bool) : Sala → List Nat → Jogo → Option Jogo
  | pos, [], st => associarPistaSuspeito_porSala comSinal pos.nomeDe st
  | pos, escolha :: resto, st =>
    match associarPistaSuspeito_porSala comSinal pos.nomeDe st with
    | none => none
    | some st1 =>
      match decidirMovimento pos escolha with
      | Movimento.ir destino => explorarLaco comSinal destino resto st1
      | Movimento.sair => some st1
      | Movimento.invalido => explorarLaco comSinal pos resto st1

/-- The function `explorarSalas`. -/
def explorarSalas (comSinal : Bool) (atual : Sala) (escolhas : List Nat) (st : Jogo) :
    Option Jogo :=
  match atual with
  | Sala.nil => some st
  | Sala.node n e d => explorarLaco comSinal (Sala.node n e d) escolhas st

/-- The rooms the loop of `explorarSalas` is in, one item per entry into a room: the starting
room, then the destination of every move made. -/
def salasVisitadas : Sala → List Nat → List Sala
  | pos, [] => [pos]
  | pos, escolha :: resto =>
    match decidirMovimento pos escolha with
    | Movimento.ir destino => pos :: salasVisitadas destino resto
    | Movimento.sair => [pos]
    | Movimento.invalido => salasVisitadas pos resto

/-- The statement `buf[strcspn(buf, "\n")] = '\0'`: the line is cut at its first newline
(byte 10). -/
def cortarLinha (linha : CStr) : CStr := linha.takeWhile (fun b => decide (b.val ≠ 10))

/-- Option 5 of `menuPrincipal`, both `fgets` calls having stored the given lines. -/
def opcao5 (comSinal : Bool) (linhaPista linhaSuspeito : CStr) (st : Jogo) : Option Jogo :=
  let pista := cortarLinha linhaPista
  let suspeito := cortarLinha linhaSuspeito
  if pista.length > 0 then
    registrar comSinal st pista (if suspeito ≠ [] then suspeito else sDesconhecido)
  else some st

/-- A discovery event: entering a room in `explorarSalas`, or a manual entry (option 5). -/
inductive Evento where
  | sala (nome : CStr) : Evento
  | manual (linhaPista : CStr) (linhaSuspeito : CStr) : Evento

/-- The effect of one discovery event on the game. -/
def aplicarEvento (comSinal : Bool) (st : Jogo) : Evento → Option Jogo
  | Evento.sala nome => associarPistaSuspeito_porSala comSinal nome st
  | Evento.manual a b => opcao5 comSinal a b st

/-- The game after the events of a list, from the state `st`. -/
def aplicarDesde (comSinal : Bool) : Jogo → List Evento → Option Jogo
  | st, [] => some st
  | st, ev :: resto =>
    match aplicarEvento comSinal st ev with
    | none => none
    | some st1 => aplicarDesde comSinal st1 resto

/-- The game after the events of a list, from the initial state. -/
def aplicarEventos (comSinal : Bool) (eventos : List Evento) : Option Jogo :=
  aplicarDesde comSinal jogoInicial eventos

/-- The call `(pista, suspeito)` that a discovery event makes, if it makes one. -/
def chamadaDe : Evento → Option (CStr × CStr)
  | Evento.sala nome =>
    if strcmp nome sBiblioteca = 0 then some (sLivros, sJoaquim)
    else if strcmp nome sCozinha = 0 then some (sPegadasCozinha, sMaria)
    else if strcmp nome sSotao = 0 ∨ strcmp nome sSotaoAcento = 0 then some (sCarta, sCarlos)
    else if strcmp nome sHall = 0 then some (sPegadasEntrada, sMaria)
    else none
  | Evento.manual a b =>
    if (cortarLinha a).length > 0 then
      some (cortarLinha a, if cortarLinha b ≠ [] then cortarLinha b else sDesconhecido)
    else none

/-- The space character. -/
def espaco : CByte := ⟨32, by decide⟩

/-- Manual entry as "rejected when the clue text is empty, otherwise the clue is stored and
associated with the suspect name that was typed". -/
def EntradaManualComoDita (comSinal : Bool) (linhaPista linhaSuspeito : CStr) (st : Jogo) :
    Prop :=
  (cortarLinha linhaPista = [] → opcao5 comSinal linhaPista linhaSuspeito st = some st) ∧
    (cortarLinha linhaPista ≠ [] →
      opcao5 comSinal linhaPista linhaSuspeito st =
        registrar comSinal st (cortarLinha linhaPista) (cortarLinha linhaSuspeito))

/-! ## Order facts about `strcmp` -/

theorem strcmp_cons_cons (x y : CByte) (xs ys : CStr) :
    strcmp (x :: xs) (y :: ys) =
      if x.val = y.val then strcmp xs ys else (x.val : Int) - (y.val : Int) := rfl

theorem strcmp_self (a : CStr) : strcmp a a = 0 := by
  induction a with
  | nil => rfl
  | cons x xs ih => simp [strcmp, ih]

theorem strcmp_swap (a b : CStr) : strcmp b a = - strcmp a b := by
  induction a generalizing b with
  | nil =>
    cases b with
    | nil => simp [strcmp]
    | cons y ys => simp [strcmp]
  | cons x xs ih =>
    cases b with
    | nil => simp [strcmp]
    | cons y ys =>
      by_cases h : x.val = y.val
      · simp [strcmp, h, ih ys]
      · have h2 : ¬ y.val = x.val := fun e => h e.symm
        simp [strcmp, h, h2]

theorem eq_of_strcmp_eq_zero (a b : CStr) (h : strcmp a b = 0) : a = b := by
  induction a generalizing b with
  | nil =>
    cases b with
    | nil => rfl
    | cons y ys =>
      have hy := y.property.1
      simp [strcmp] at h
      omega
  | cons x xs ih =>
    cases b with
    | nil =>
      have hx := x.property.1
      simp [strcmp] at h
      omega
    | cons y ys =>
      by_cases hxy : x.val = y.val
      · simp [strcmp, hxy] at h
        rw [Subtype.ext hxy, ih ys h]
      · simp [strcmp, hxy] at h
        omega

theorem strcmp_eq_zero_iff (a b : CStr) : strcmp a b = 0 ↔ a = b :=
  ⟨eq_of_strcmp_eq_zero a b, fun h => h ▸ strcmp_self a⟩

theorem strcmp_pos_iff (a b : CStr) : strcmp a b > 0 ↔ strcmp b a < 0 := by
  rw [strcmp_swap a b]; omega

theorem strcmp_lt_trans (a b c : CStr) (hab : strcmp a b < 0) (hbc : strcmp b c < 0) :
    strcmp a c < 0 := by
  induction a generalizing b c with
  | nil =>
    cases c with
    | nil =>
      cases b with
      | nil => simp [strcmp] at hab
      | cons y ys =>
        have hy := y.property.1
        simp [strcmp] at hbc
        omega
    | cons z zs =>
      have hz := z.property.1
      simp [strcmp]
      omega
  | cons x xs ih =>
    cases b with
    | nil =>
      have hx := x.property.1
      simp [strcmp] at hab
      omega
    | cons y ys =>
      cases c with
      | nil =>
        have hy := y.property.1
        simp [strcmp] at hbc
        omega
      | cons z zs =>
        rw [strcmp_cons_cons] at hab hbc ⊢
        split_ifs at hab hbc ⊢ with h1 h2 h3 <;> first | exact ih ys zs hab hbc | omega

/-! ## The clue tree -/

theorem mem_textos_inserir (t : Pista) (x y : CStr) :
    y ∈ (inserirPistaBST t x).textos ↔ y ∈ t.textos ∨ y = x := by
  induction t with
  | nil => simp [inserirPistaBST, criarPista, Pista.textos]
  | node z e d ihe ihd =>
    unfold inserirPistaBST
    split_ifs with h1 h2
    · simp only [Pista.textos, List.mem_cons, List.mem_append, ihe]
      tauto
    · simp only [Pista.textos, List.mem_cons, List.mem_append, ihd]
      tauto
    · have hx : x = z := eq_of_strcmp_eq_zero x z (by omega)
      subst hx
      simp only [Pista.textos, List.mem_cons, List.mem_append]
      tauto

theorem mem_emOrdemPistas (t : Pista) (y : CStr) : y ∈ emOrdemPistas t ↔ y ∈ t.textos := by
  induction t with
  | nil => simp [emOrdemPistas, Pista.textos]
  | node z e d ihe ihd =>
    simp only [emOrdemPistas, Pista.textos, List.mem_cons, List.mem_append, ihe, ihd]
    tauto

theorem ordenada_inserir (t : Pista) (x : CStr) (h : t.ordenada) :
    (inserirPistaBST t x).ordenada := by
  induction t with
  | nil => simp [inserirPistaBST, criarPista, Pista.ordenada, Pista.textos]
  | node z e d ihe ihd =>
    obtain ⟨hl, hr, he, hd⟩ := h
    unfold inserirPistaBST
    split_ifs with h1 h2
    · refine ⟨?_, hr, ihe he, hd⟩
      intro y hy
      rcases (mem_textos_inserir e x y).1 hy with hy | hy
      · exact hl y hy
      · rw [hy]; exact h1
    · refine ⟨hl, ?_, he, ihd hd⟩
      intro y hy
      rcases (mem_textos_inserir d x y).1 hy with hy | hy
      · exact hr y hy
      · rw [hy]; exact h2
    · exact ⟨hl, hr, he, hd⟩

theorem nodup_textos_of_ordenada (t : Pista) (h : t.ordenada) : t.textos.Nodup := by
  induction t with
  | nil => simp [Pista.textos]
  | node z e d ihe ihd =>
    obtain ⟨hl, hr, he, hd⟩ := h
    have hz := strcmp_self z
    simp only [Pista.textos, List.nodup_cons, List.mem_append, List.nodup_append]
    refine ⟨?_, ihe he, ihd hd, ?_⟩
    · rintro (hm | hm)
      · have := hl z hm; omega
      · have := hr z hm; omega
    · intro y hy1 hy2
      have h1 := hl y hy1
      have h2 := hr y hy2
      omega

theorem pairwise_emOrdemPistas (t : Pista) (h : t.ordenada) :
    (emOrdemPistas t).Pairwise cstrLt := by
  induction t with
  | nil => simp [emOrdemPistas]
  | node z e d ihe ihd =>
    obtain ⟨hl, hr, he, hd⟩ := h
    simp only [emOrdemPistas, List.pairwise_append, List.pairwise_cons, List.mem_cons]
    refine ⟨ihe he, ⟨?_, ihd hd⟩, ?_⟩
    · intro y hy
      exact (strcmp_pos_iff y z).1 (hr y ((mem_emOrdemPistas d y).1 hy))
    · intro a ha b hb
      have haz : strcmp a z < 0 := hl a ((mem_emOrdemPistas e a).1 ha)
      rcases hb with hb | hb
      · rw [hb]; exact haz
      · exact strcmp_lt_trans a z b haz
          ((strcmp_pos_iff b z).1 (hr b ((mem_emOrdemPistas d b).1 hb)))

theorem ordenada_inserirPistas (t : Pista) (xs : List CStr) (h : t.ordenada) :
    (inserirPistas t xs).ordenada := by
  induction xs generalizing t with
  | nil => exact h
  | cons x xs ih => exact ih (inserirPistaBST t x) (ordenada_inserir t x h)

theorem mem_textos_inserirPistas (t : Pista) (xs : List CStr) (y : CStr) :
    y ∈ (inserirPistas t xs).textos ↔ y ∈ t.textos ∨ y ∈ xs := by
  induction xs generalizing t with
  | nil => simp [inserirPistas]
  | cons x xs ih =>
    have := ih (inserirPistaBST t x)
    simp only [inserirPistas, List.foldl_cons] at this ⊢
    rw [this, mem_textos_inserir, List.mem_cons]
    tauto

theorem inserir_eq_self (t : Pista) (x : CStr) (h : t.ordenada) (hx : x ∈ t.textos) :
    inserirPistaBST t x = t := by
  induction t with
  | nil => simp [Pista.textos] at hx
  | node z e d ihe ihd =>
    obtain ⟨hl, hr, he, hd⟩ := h
    simp only [Pista.textos, List.mem_cons, List.mem_append] at hx
    unfold inserirPistaBST
    rcases hx with hx | hx | hx
    · have h0 : strcmp x z = 0 := by rw [hx]; exact strcmp_self z
      simp [h0]
    · have h1 := hl x hx
      simp [h1, ihe he hx]
    · have h1 := hr x hx
      have h2 : ¬ strcmp x z < 0 := by omega
      simp only [h2, if_false]
      simp [h1, ihd hd hx]

theorem mem_textos_inserir_self (t : Pista) (x : CStr) : x ∈ (inserirPistaBST t x).textos :=
  (mem_textos_inserir t x x).2 (Or.inr rfl)

instance : IsTotal CStr cstrLe := ⟨fun a b => by
  unfold cstrLe; rw [strcmp_swap a b]; omega⟩

instance : IsTrans CStr cstrLe := ⟨fun a b c hab hbc => by
  unfold cstrLe at *
  rcases lt_or_eq_of_le hab with h1 | h1
  · rcases lt_or_eq_of_le hbc with h2 | h2
    · exact Int.le_of_lt (strcmp_lt_trans a b c h1 h2)
    · rw [← eq_of_strcmp_eq_zero b c h2]; exact hab
  · rw [eq_of_strcmp_eq_zero a b h1]; exact hbc⟩

instance : IsAntisymm CStr cstrLe := ⟨fun a b hab hba => by
  unfold cstrLe at *
  rw [strcmp_swap a b] at hba
  exact eq_of_strcmp_eq_zero a b (by omega)⟩

theorem emOrdemPistas_eq_sort (xs : List CStr) :
    emOrdemPistas (inserirPistas Pista.nil xs) = (xs.dedup).insertionSort cstrLe := by
  have hord : (inserirPistas Pista.nil xs).ordenada :=
    ordenada_inserirPistas Pista.nil xs trivial
  have hpw := pairwise_emOrdemPistas _ hord
  have hs1 : (emOrdemPistas (inserirPistas Pista.nil xs)).Sorted cstrLe :=
    hpw.imp (fun h => Int.le_of_lt h)
  have hnd1 : (emOrdemPistas (inserirPistas Pista.nil xs)).Nodup :=
    hpw.imp (fun {a b} h e => by
      unfold cstrLt at h; rw [e, strcmp_self] at h; omega)
  have hnd2 : ((xs.dedup).insertionSort cstrLe).Nodup :=
    (List.perm_insertionSort cstrLe xs.dedup).nodup_iff.2 (List.nodup_dedup xs)
  refine List.eq_of_perm_of_sorted ?_ hs1 (List.sorted_insertionSort cstrLe _)
  refine (List.perm_ext_iff_of_nodup hnd1 hnd2).2 (fun y => ?_)
  rw [mem_emOrdemPistas, mem_textos_inserirPistas,
    (List.perm_insertionSort cstrLe xs.dedup).mem_iff, List.mem_dedup]
  simp [Pista.textos]

theorem count_eq_one_of_nodup (l : List CStr) (x : CStr) (hnd : l.Nodup) (hx : x ∈ l) :
    l.count x = 1 := by
  induction l with
  | nil => simp at hx
  | cons a l ih =>
    rw [List.nodup_cons] at hnd
    rw [List.count_cons]
    by_cases hax : a = x
    · subst hax
      simp [List.count_eq_zero_of_not_mem hnd.1]
    · have hxl : x ∈ l := by
        rcases List.mem_cons.1 hx with h | h
        · exact absurd h.symm hax
        · exact h
      simp [hax, ih hnd.2 hxl]

/-- C1: `inserirPistaBST` keeps the search-tree invariant (left texts strictly below, right
texts strictly above each node, by the sign of `strcmp`), and the tree it returns has no two
nodes with the same text. -/
theorem inserirPistaBST_preserva_invariante (t : Pista) (x : CStr) (h : t.ordenada) :
    (inserirPistaBST t x).ordenada ∧ (inserirPistaBST t x).textos.Nodup :=
  ⟨ordenada_inserir t x h, nodup_textos_of_ordenada _ (ordenada_inserir t x h)⟩

theorem inserirPistaBST_preserva_invariante_witness :
    (criarPista sCarta).ordenada ∧
      (inserirPistaBST (criarPista sCarta) (ofBytes [65])).ordenada ∧
      (inserirPistaBST (criarPista sCarta) (ofBytes [65])).textos.Nodup :=
  ⟨by decide, inserirPistaBST_preserva_invariante (criarPista sCarta) (ofBytes [65]) (by decide)⟩

/-- C2: whatever texts are inserted from the empty tree and in whatever order, the in-order
listing `emOrdemPistas` is strictly ascending by `strcmp` and has no repeated element. -/
theorem emOrdemPistas_estritamente_crescente (xs : List CStr) :
    (emOrdemPistas (inserirPistas Pista.nil xs)).Pairwise (fun a b => strcmp a b < 0) ∧
      (emOrdemPistas (inserirPistas Pista.nil xs)).Nodup := by
  have hpw := pairwise_emOrdemPistas _ (ordenada_inserirPistas Pista.nil xs trivial)
  refine ⟨hpw, hpw.imp (fun {a b} h e => ?_)⟩
  unfold cstrLt at h
  rw [e, strcmp_self] at h
  omega

/-- C3: inserting a text that a search tree already stores returns the very same tree; so a
second insert of a text changes neither the tree nor its in-order listing, where the text
appears exactly once. -/
theorem inserirPistaBST_duplicata (t : Pista) (x : CStr) (h : t.ordenada) :
    (x ∈ t.textos → inserirPistaBST t x = t) ∧
      inserirPistaBST (inserirPistaBST t x) x = inserirPistaBST t x ∧
      emOrdemPistas (inserirPistaBST (inserirPistaBST t x) x) =
        emOrdemPistas (inserirPistaBST t x) ∧
      (emOrdemPistas (inserirPistaBST (inserirPistaBST t x) x)).count x = 1 := by
  have h2 : inserirPistaBST (inserirPistaBST t x) x = inserirPistaBST t x :=
    inserir_eq_self _ x (ordenada_inserir t x h) (mem_textos_inserir_self t x)
  refine ⟨inserir_eq_self t x h, h2, by rw [h2], ?_⟩
  rw [h2]
  have hpw := pairwise_emOrdemPistas _ (ordenada_inserir t x h)
  have hnd : (emOrdemPistas (inserirPistaBST t x)).Nodup :=
    hpw.imp (fun {a b} h e => by
      unfold cstrLt at h; rw [e, strcmp_self] at h; omega)
  exact count_eq_one_of_nodup _ x hnd
    ((mem_emOrdemPistas _ x).2 (mem_textos_inserir_self t x))

theorem inserirPistaBST_duplicata_witness :
    Pista.nil.ordenada ∧
      emOrdemPistas (inserirPistaBST (inserirPistaBST Pista.nil sCarta) sCarta) =
        emOrdemPistas (inserirPistaBST Pista.nil sCarta) ∧
      (emOrdemPistas (inserirPistaBST (inserirPistaBST Pista.nil sCarta) sCarta)).count sCarta
        = 1 :=
  ⟨trivial, (inserirPistaBST_duplicata Pista.nil sCarta trivial).2.2⟩

/-- C4: the texts listed in order after `inserirPistaBST (t, x)` are exactly those listed for
`t` together with `x`; inserting into the empty tree gives the single node holding `x`; and
after inserting any sequence from the empty tree the listing is the sorted list of the
distinct texts of the sequence. -/
theorem inserirPistaBST_conjunto (t : Pista) (x : CStr) :
    (∀ y, y ∈ emOrdemPistas (inserirPistaBST t x) ↔ y ∈ emOrdemPistas t ∨ y = x) ∧
      inserirPistaBST Pista.nil x = Pista.node x Pista.nil Pista.nil ∧
      ∀ xs : List CStr,
        emOrdemPistas (inserirPistas Pista.nil xs) = (xs.dedup).insertionSort cstrLe := by
  refine ⟨fun y => ?_, rfl, emOrdemPistas_eq_sort⟩
  rw [mem_emOrdemPistas, mem_emOrdemPistas, mem_textos_inserir]

/-! ## The bucket of a name -/

theorem hashNome_cons (comSinal : Bool) (b : CByte) (r : CStr) :
    hashNome comSinal (b :: r) =
      if 97 ≤ b.val ∧ b.val ≤ 122 then b.val - 97
      else if 65 ≤ b.val ∧ b.val ≤ 90 then b.val - 65 else 26 := by
  have hb := b.property
  cases comSinal <;> simp only [hashNome, charDe, HASH_SIZE] <;> split_ifs <;> omega

/-- C5: `hashNome` follows the bucket policy: the empty name goes to bucket 26; a name that
starts with an ASCII letter goes to the alphabet position of that letter, upper or lower case
(0 for a, 25 for z), so names starting with different letters get different buckets; any
other first byte goes to 26, as for "7zz". Bucket 26 is hit exactly by the names that are
empty or do not start with a letter. -/
theorem hashNome_politica (comSinal : Bool) :
    hashNome comSinal [] = 26 ∧
      (∀ (b : CByte) (r : CStr), hashNome comSinal (b :: r) =
        if 97 ≤ b.val ∧ b.val ≤ 122 then b.val - 97
        else if 65 ≤ b.val ∧ b.val ≤ 90 then b.val - 65 else 26) ∧
      (∀ (b c : CByte) (r t : CStr), ehLetra b → ehLetra c →
        paraMinuscula b ≠ paraMinuscula c →
        hashNome comSinal (b :: r) ≠ hashNome comSinal (c :: t)) ∧
      hashNome comSinal s7zz = 26 ∧
      (∀ s : CStr, hashNome comSinal s = 26 ↔
        (s = [] ∨ ∃ b r, s = b :: r ∧ ¬ ehLetra b)) := by
  refine ⟨rfl, hashNome_cons comSinal, ?_, ?_, ?_⟩
  · intro b c r t hb hc hne
    rw [hashNome_cons, hashNome_cons]
    unfold ehLetra at hb hc
    unfold paraMinuscula at hne
    split_ifs at hne ⊢ <;> omega
  · cases comSinal <;> decide
  · intro s
    cases s with
    | nil => simp [hashNome, HASH_SIZE]
    | cons b r =>
      rw [hashNome_cons]
      simp only [List.cons.injEq, false_or, reduceCtorEq]
      constructor
      · intro h
        refine ⟨b, r, ⟨rfl, rfl⟩, ?_⟩
        unfold ehLetra
        split_ifs at h <;> omega
      · rintro ⟨b1, r1, ⟨hb, _⟩, hl⟩
        subst hb
        unfold ehLetra at hl
        split_ifs <;> omega

theorem hashNome_politica_witness :
    hashNome true sMaria ≠ hashNome true sJoaquim :=
  (hashNome_politica true).2.2.1 ⟨77, by decide⟩ ⟨74, by decide⟩
    (ofBytes [97, 114, 105, 97]) (ofBytes [111, 97, 113, 117, 105, 109])
    (by decide) (by decide) (by decide)

/-- C6: the bucket depends only on the first character of the name, and not on its case: two
names that are both empty, or whose first bytes are equal once an upper-case ASCII letter is
folded to lower case, get the same bucket, whatever follows. -/
theorem hashNome_primeiro_caractere (comSinal : Bool) (s t : CStr)
    (h : s.head?.map paraMinuscula = t.head?.map paraMinuscula) :
    hashNome comSinal s = hashNome comSinal t := by
  cases s with
  | nil =>
    cases t with
    | nil => rfl
    | cons c t => simp at h
  | cons b s =>
    cases t with
    | nil => simp at h
    | cons c t =>
      rw [hashNome_cons, hashNome_cons]
      simp only [List.head?_cons, Option.map_some', Option.some.injEq] at h
      unfold paraMinuscula at h
      split_ifs at h ⊢ <;> omega

theorem hashNome_primeiro_caractere_witness :
    (sMaria.head?.map paraMinuscula = (ofBytes [109, 97, 114, 116, 97]).head?.map paraMinuscula) ∧
      hashNome true sMaria = hashNome true (ofBytes [109, 97, 114, 116, 97]) :=
  ⟨by decide, hashNome_primeiro_caractere true sMaria (ofBytes [109, 97, 114, 116, 97]) (by decide)⟩

/-! ## The scan of `suspeitoMaisProvavel` -/

theorem hashNome_lt (comSinal : Bool) (n : CStr) : hashNome comSinal n < HASH_SIZE := by
  cases n with
  | nil => simp [hashNome, HASH_SIZE]
  | cons b r =>
    rw [hashNome_cons]
    unfold HASH_SIZE
    split_ifs <;> omega

theorem bucket_comBucket (T : HashTable) (i j : Nat) (c : Cadeia) (hi : i < HASH_SIZE) :
    (T.comBucket i c).bucket j = if j = i then c else T.bucket j := by
  have hlen := T.property
  unfold HashTable.bucket HashTable.comBucket
  simp only [List.getD_eq_getElem?_getD, List.getElem?_set]
  by_cases hji : j = i
  · subst hji
    simp [hlen, hi]
  · have hij : ¬ i = j := fun e => hji e.symm
    simp [hji, hij]

theorem bucket_of_ge (T : HashTable) (i : Nat) (hi : HASH_SIZE ≤ i) : T.bucket i = [] := by
  unfold HashTable.bucket
  rw [List.getD_eq_getElem?_getD, List.getElem?_eq_none (by rw [T.property]; exact hi)]
  rfl

theorem varrerCadeia_eq_foldl (i : Nat) (c : Cadeia) (j : Nat) (best : Option (Ref × Suspeito)) :
    varrerCadeia i c j best =
      (Cadeia.refs i c j).foldl (fun b e => melhorDe b e.1 e.2) best := by
  induction c generalizing j best with
  | nil => rfl
  | cons p c ih => simp [varrerCadeia, Cadeia.refs, ih]

theorem foldl_flatMap_eq {ι β γ : Type} (l : List ι) (f : ι → List β) (g : γ → β → γ) (b : γ) :
    (l.flatMap f).foldl g b = l.foldl (fun acc i => (f i).foldl g acc) b := by
  induction l generalizing b with
  | nil => rfl
  | cons x l ih => simp [List.flatMap_cons, List.foldl_append, ih]

theorem suspeitoMaisProvavel_eq_foldl (T : HashTable) :
    suspeitoMaisProvavel T = T.entradas.foldl (fun b e => melhorDe b e.1 e.2) none := by
  unfold suspeitoMaisProvavel HashTable.entradas
  rw [foldl_flatMap_eq]
  congr 1
  funext best i
  exact varrerCadeia_eq_foldl i (T.bucket i) 0 best

theorem foldl_melhorDe_some (L : List (Ref × Suspeito)) (b : Ref × Suspeito) :
    ∃ e, L.foldl (fun b e => melhorDe b e.1 e.2) (some b) = some e ∧
      ((e = b ∧ ∀ x ∈ L, x.2.contPistas ≤ b.2.contPistas) ∨
        (∃ A B, L = A ++ e :: B ∧ (∀ a ∈ A, a.2.contPistas < e.2.contPistas) ∧
          b.2.contPistas < e.2.contPistas ∧ ∀ x ∈ B, x.2.contPistas ≤ e.2.contPistas)) := by
  induction L generalizing b with
  | nil => exact ⟨b, rfl, Or.inl ⟨rfl, by simp⟩⟩
  | cons x L ih =>
    by_cases hx : x.2.contPistas > b.2.contPistas
    · obtain ⟨e, he, hcase⟩ := ih x
      have hstep : melhorDe (some b) x.1 x.2 = some x := by simp [melhorDe, hx]
      refine ⟨e, by simp only [List.foldl_cons]; rw [hstep]; exact he, Or.inr ?_⟩
      rcases hcase with ⟨hex, hall⟩ | ⟨A, B, hL, hA, hlt, hB⟩
      · subst hex
        exact ⟨[], L, rfl, by simp, hx, hall⟩
      · refine ⟨x :: A, B, by rw [hL]; rfl, ?_, by omega, hB⟩
        intro a ha
        rcases List.mem_cons.1 ha with h | h
        · rw [h]; exact hlt
        · exact hA a h
    · obtain ⟨e, he, hcase⟩ := ih b
      have hstep : melhorDe (some b) x.1 x.2 = some b := by simp [melhorDe, hx]
      refine ⟨e, by simp only [List.foldl_cons]; rw [hstep]; exact he, ?_⟩
      rcases hcase with ⟨heb, hall⟩ | ⟨A, B, hL, hA, hlt, hB⟩
      · refine Or.inl ⟨heb, ?_⟩
        intro y hy
        rcases List.mem_cons.1 hy with h | h
        · rw [h]; omega
        · exact hall y h
      · refine Or.inr ⟨x :: A, B, by rw [hL]; rfl, ?_, hlt, hB⟩
        intro a ha
        rcases List.mem_cons.1 ha with h | h
        · rw [h]; omega
        · exact hA a h

theorem foldl_melhorDe_none (L : List (Ref × Suspeito)) :
    (L.foldl (fun b e => melhorDe b e.1 e.2) none = none ↔ L = []) ∧
      ∀ e, L.foldl (fun b e => melhorDe b e.1 e.2) none = some e →
        ∃ A B, L = A ++ e :: B ∧ (∀ a ∈ A, a.2.contPistas < e.2.contPistas) ∧
          ∀ x ∈ B, x.2.contPistas ≤ e.2.contPistas := by
  cases L with
  | nil => simp
  | cons x L =>
    obtain ⟨e, he, hcase⟩ := foldl_melhorDe_some L x
    have hfold : (x :: L).foldl (fun b e => melhorDe b e.1 e.2) none = some e := by
      simp only [List.foldl_cons, melhorDe]
      exact he
    refine ⟨by simp [hfold], ?_⟩
    intro e1 he1
    rw [hfold] at he1
    cases he1
    rcases hcase with ⟨hex, hall⟩ | ⟨A, B, hL, hA, _, hB⟩
    · subst hex
      exact ⟨[], L, rfl, by simp, hall⟩
    · exact ⟨x :: A, B, by rw [hL]; rfl, by
        intro a ha
        rcases List.mem_cons.1 ha with h | h
        · rw [h]; assumption
        · exact hA a h, hB⟩

theorem mem_refs (i : Nat) (cad : Cadeia) (j : Nat) (r : Ref) (s : Suspeito) :
    (r, s) ∈ Cadeia.refs i cad j ↔ r.1 = i ∧ j ≤ r.2 ∧ cad[r.2 - j]? = some s := by
  induction cad generalizing j with
  | nil => simp [Cadeia.refs]
  | cons p cad ih =>
    obtain ⟨r1, r2⟩ := r
    simp only [Cadeia.refs, List.mem_cons, Prod.mk.injEq, ih]
    constructor
    · rintro (⟨⟨h1, h2⟩, h3⟩ | ⟨h1, h2, h3⟩)
      · subst h1 h2 h3
        simp
      · refine ⟨h1, by omega, ?_⟩
        have : r2 - j = (r2 - (j + 1)) + 1 := by omega
        rw [this, List.getElem?_cons_succ]
        exact h3
    · rintro ⟨h1, h2, h3⟩
      by_cases hj : r2 = j
      · left
        subst hj
        simp at h3
        exact ⟨⟨h1, rfl⟩, h3.symm⟩
      · right
        refine ⟨h1, by omega, ?_⟩
        have : r2 - j = (r2 - (j + 1)) + 1 := by omega
        rw [this, List.getElem?_cons_succ] at h3
        exact h3

theorem mem_entradas (T : HashTable) (r : Ref) (s : Suspeito) :
    (r, s) ∈ T.entradas ↔ T.entrada r = some s := by
  unfold HashTable.entradas HashTable.entrada
  simp only [List.mem_flatMap, List.mem_range, mem_refs, Nat.zero_le, Nat.sub_zero, true_and]
  constructor
  · rintro ⟨i, _, h1, h2⟩
    rw [h1]; exact h2
  · intro h
    refine ⟨r.1, ?_, rfl, h⟩
    by_contra hge
    rw [bucket_of_ge T r.1 (by omega)] at h
    simp at h

theorem pairwise_refs (i : Nat) (cad : Cadeia) (j : Nat) :
    (Cadeia.refs i cad j).Pairwise (fun a b => Ref.antes a.1 b.1) := by
  induction cad generalizing j with
  | nil => simp [Cadeia.refs]
  | cons p cad ih =>
    simp only [Cadeia.refs, List.pairwise_cons]
    refine ⟨?_, ih (j + 1)⟩
    rintro ⟨r, s⟩ hrs
    obtain ⟨h1, h2, _⟩ := (mem_refs i cad (j + 1) r s).1 hrs
    right
    exact ⟨h1.symm, by simp only; omega⟩

theorem pairwise_entradas (T : HashTable) :
    T.entradas.Pairwise (fun a b => Ref.antes a.1 b.1) := by
  unfold HashTable.entradas List.flatMap
  rw [List.pairwise_flatten]
  constructor
  · intro l hl
    obtain ⟨i, _, rfl⟩ := List.mem_map.1 hl
    exact pairwise_refs i (T.bucket i) 0
  · rw [List.pairwise_map]
    refine (List.pairwise_lt_range HASH_SIZE).imp ?_
    intro a b hab x hx y hy
    obtain ⟨rx, sx⟩ := x
    obtain ⟨ry, sy⟩ := y
    have h1 := ((mem_refs a _ 0 rx sx).1 hx).1
    have h2 := ((mem_refs b _ 0 ry sy).1 hy).1
    left
    simp only
    omega

theorem suspeitoMaisProvavel_spec (T : HashTable) (r : Ref) (s : Suspeito)
    (h : suspeitoMaisProvavel T = some (r, s)) :
    T.entrada r = some s ∧
      (∀ r1 s1, T.entrada r1 = some s1 → s1.contPistas ≤ s.contPistas) ∧
      (∀ r1 s1, T.entrada r1 = some s1 → Ref.antes r1 r → s1.contPistas < s.contPistas) := by
  rw [suspeitoMaisProvavel_eq_foldl] at h
  obtain ⟨A, B, hL, hA, hB⟩ := (foldl_melhorDe_none T.entradas).2 (r, s) h
  have hpw := pairwise_entradas T
  rw [hL, List.pairwise_append, List.pairwise_cons] at hpw
  obtain ⟨_, ⟨hrB, _⟩, hAB⟩ := hpw
  have hmem : ∀ r1 s1, T.entrada r1 = some s1 →
      (r1, s1) ∈ A ∨ (r1, s1) = (r, s) ∨ (r1, s1) ∈ B := by
    intro r1 s1 h1
    have := (mem_entradas T r1 s1).2 h1
    rw [hL, List.mem_append, List.mem_cons] at this
    exact this
  refine ⟨(mem_entradas T r s).1 (by rw [hL]; simp), ?_, ?_⟩
  · intro r1 s1 h1
    rcases hmem r1 s1 h1 with h2 | h2 | h2
    · exact Nat.le_of_lt (hA _ h2)
    · cases h2; exact Nat.le_refl _
    · exact hB _ h2
  · intro r1 s1 h1 hant
    rcases hmem r1 s1 h1 with h2 | h2 | h2
    · exact hA _ h2
    · cases h2
      unfold Ref.antes at hant
      omega
    · have := hrB _ h2
      unfold Ref.antes at hant this
      simp only at this
      omega

/-- C9: `suspeitoMaisProvavel` returns the null pointer exactly when the table has no entry;
otherwise it returns a pointer to an entry of the table whose clue count is at least the clue
count of every entry. In the scenario (one clue for Joaquim, two for Maria) the result is
Maria with count 2. -/
theorem suspeitoMaisProvavel_maximo (T : HashTable) :
    (suspeitoMaisProvavel T = none ↔ ∀ r, T.entrada r = none) ∧
      (∀ r s, suspeitoMaisProvavel T = some (r, s) →
        T.entrada r = some s ∧
          ∀ r1 s1, T.entrada r1 = some s1 → s1.contPistas ≤ s.contPistas) ∧
      (∀ comSinal : Bool,
        ((inserirHashSeq comSinal cenario).bind suspeitoMaisProvavel).map
          (fun e => (e.2.nome, e.2.contPistas)) = some (sMaria, 2)) := by
  refine ⟨?_, ?_, ?_⟩
  · rw [suspeitoMaisProvavel_eq_foldl, (foldl_melhorDe_none T.entradas).1]
    constructor
    · intro h r
      cases hr : T.entrada r with
      | none => rfl
      | some s =>
        have := (mem_entradas T r s).2 hr
        rw [h] at this
        simp at this
    · intro h
      rw [List.eq_nil_iff_forall_not_mem]
      rintro ⟨r, s⟩ hmem
      have := (mem_entradas T r s).1 hmem
      rw [h r] at this
      simp at this
  · intro r s h
    have := suspeitoMaisProvavel_spec T r s h
    exact ⟨this.1, this.2.1⟩
  · intro comSinal
    cases comSinal <;> decide

theorem suspeitoMaisProvavel_maximo_witness :
    inserirHashSeq true cenario = some tabelaCenario ∧
      suspeitoMaisProvavel tabelaCenario =
        some ((12, 0), ⟨sMaria, [some sPegadasCozinha, some sPegadasEntrada], 2, 2⟩) ∧
      tabelaCenario.entrada (12, 0) =
        some ⟨sMaria, [some sPegadasCozinha, some sPegadasEntrada], 2, 2⟩ :=
  ⟨by decide, by decide,
    ((suspeitoMaisProvavel_maximo tabelaCenario).2.1 (12, 0)
      ⟨sMaria, [some sPegadasCozinha, some sPegadasEntrada], 2, 2⟩ (by decide)).1⟩

/-- C10: among the entries with the largest clue count `suspeitoMaisProvavel` returns the one
met first in the scan (buckets by index from 0 to 26, each chain from its head): every entry
that the scan meets before the returned one has a strictly smaller clue count, and no entry
has a larger one. -/
theorem suspeitoMaisProvavel_desempate (T : HashTable) (r : Ref) (s : Suspeito)
    (h : suspeitoMaisProvavel T = some (r, s)) :
    T.entrada r = some s ∧
      (∀ r1 s1, T.entrada r1 = some s1 → s1.contPistas ≤ s.contPistas) ∧
      (∀ r1 s1, T.entrada r1 = some s1 → (r1.1 < r.1 ∨ (r1.1 = r.1 ∧ r1.2 < r.2)) →
        s1.contPistas < s.contPistas) ∧
      (∀ r1 s1, T.entrada r1 = some s1 → s1.contPistas = s.contPistas →
        (r.1 < r1.1 ∨ (r.1 = r1.1 ∧ r.2 ≤ r1.2))) := by
  obtain ⟨h1, h2, h3⟩ := suspeitoMaisProvavel_spec T r s h
  refine ⟨h1, h2, h3, ?_⟩
  intro r1 s1 hr1 heq
  by_contra hcon
  have hant : Ref.antes r1 r := by
    unfold Ref.antes
    omega
  have := h3 r1 s1 hr1 hant
  omega

theorem suspeitoMaisProvavel_desempate_witness :
    inserirHashSeq true empate = some tabelaEmpate ∧
      suspeitoMaisProvavel tabelaEmpate =
        some ((12, 0), ⟨sMarta, [some sPegadasEntrada, none], 1, 2⟩) ∧
      tabelaEmpate.entrada (12, 1) = some ⟨sMaria, [some sLivros, none], 1, 2⟩ ∧
      ((12 : Nat) < 12 ∨ ((12 : Nat) = 12 ∧ (0 : Nat) ≤ 1)) :=
  ⟨by decide, by decide, by decide,
    (suspeitoMaisProvavel_desempate tabelaEmpate (12, 0)
      ⟨sMarta, [some sPegadasEntrada, none], 1, 2⟩ (by decide)).2.2.2 (12, 1)
      ⟨sMaria, [some sLivros, none], 1, 2⟩ (by decide) rfl⟩

/-! ## Find-or-create and the clue lists -/

theorem take_set_succ {α : Type} (l : List α) (k : Nat) (x : α) (hk : k < l.length) :
    (l.set k x).take (k + 1) = l.take k ++ [x] := by
  induction l generalizing k with
  | nil => simp at hk
  | cons a l ih =>
    cases k with
    | zero => simp
    | succ k =>
      simp only [List.length_cons] at hk
      simp [List.set_cons_succ, List.take_succ_cons, ih k (by omega)]

theorem guarda_criarSuspeito (n : CStr) : (criarSuspeito n).guarda [] := by
  simp [Suspeito.guarda, criarSuspeito]

theorem guarda_novo (n p : CStr) : (Suspeito.novo n p).guarda [p] := by
  simp [Suspeito.guarda, Suspeito.novo]

theorem guarda_cont (s : Suspeito) (L : List CStr) (h : s.guarda L) :
    s.contPistas = L.length := by
  obtain ⟨_, hle, hlen, htake⟩ := h
  have := congrArg List.length htake
  simp only [List.length_take, List.length_map] at this
  omega

theorem garantirCapacidade_spec (s s0 : Suspeito) (h : garantirCapacidade s = some s0) :
    s0.nome = s.nome ∧ s0.contPistas = s.contPistas ∧
      ((s.contPistas < s.capPistas ∧ s0 = s) ∨
        (s.capPistas ≤ s.contPistas ∧ s.capPistas * 2 ≤ INT_MAX ∧
          s0.capPistas = s.capPistas * 2 ∧
          s0.pistas = realocar s.pistas (s.capPistas * 2))) := by
  unfold garantirCapacidade at h
  by_cases hfull : s.contPistas ≥ s.capPistas
  · by_cases hfit : s.capPistas * 2 ≤ INT_MAX
    · simp only [hfull, hfit, if_true, Option.some.injEq] at h
      subst h
      exact ⟨rfl, rfl, Or.inr ⟨hfull, hfit, rfl, rfl⟩⟩
    · simp [hfull, hfit] at h
  · simp only [hfull, if_false, Option.some.injEq] at h
    subst h
    exact ⟨rfl, rfl, Or.inl ⟨by omega, rfl⟩⟩

theorem adicionar_spec (s s1 : Suspeito) (p : CStr)
    (h : adicionarPistaASuspeito s p = some s1) :
    ∃ s0, garantirCapacidade s = some s0 ∧ s0.contPistas + 1 ≤ INT_MAX ∧
      s1 = { s0 with pistas := s0.pistas.set s0.contPistas (some p),
                     contPistas := s0.contPistas + 1 } := by
  unfold adicionarPistaASuspeito at h
  cases hg : garantirCapacidade s with
  | none => simp [hg] at h
  | some s0 =>
    simp only [hg] at h
    by_cases hfit : s0.contPistas + 1 ≤ INT_MAX
    · simp only [hfit, if_true, Option.some.injEq] at h
      exact ⟨s0, rfl, hfit, h.symm⟩
    · simp [hfit] at h

theorem nome_adicionarPistaASuspeito (s s1 : Suspeito) (p : CStr)
    (h : adicionarPistaASuspeito s p = some s1) : s1.nome = s.nome := by
  obtain ⟨s0, hg, _, rfl⟩ := adicionar_spec s s1 p h
  exact (garantirCapacidade_spec s s0 hg).1

theorem contPistas_adicionarPistaASuspeito (s s1 : Suspeito) (p : CStr)
    (h : adicionarPistaASuspeito s p = some s1) : s1.contPistas = s.contPistas + 1 := by
  obtain ⟨s0, hg, _, rfl⟩ := adicionar_spec s s1 p h
  have := (garantirCapacidade_spec s s0 hg).2.1
  simp only
  omega

theorem guarda_garantirCapacidade (s s0 : Suspeito) (L : List CStr) (h : s.guarda L)
    (hg : garantirCapacidade s = some s0) :
    s0.contPistas < s0.capPistas ∧ s0.pistas.length = s0.capPistas ∧
      s0.pistas.take s0.contPistas = L.map some := by
  obtain ⟨hpos, hle, hlen, htake⟩ := h
  obtain ⟨_, hc, hcase⟩ := garantirCapacidade_spec s s0 hg
  rcases hcase with ⟨hlt, rfl⟩ | ⟨hfull, _, hcap, hpis⟩
  · exact ⟨hlt, hlen, htake⟩
  · have hre : realocar s.pistas (s.capPistas * 2) =
        s.pistas ++ List.replicate s.capPistas none := by
      unfold realocar
      rw [List.take_of_length_le (by omega), hlen]
      congr 2
      omega
    rw [hc, hcap, hpis, hre]
    refine ⟨by omega, by simp [hlen]; omega, ?_⟩
    rw [List.take_append_of_le_length (by omega), htake]

theorem guarda_adicionarPistaASuspeito (s s1 : Suspeito) (L : List CStr) (p : CStr)
    (h : s.guarda L) (ha : adicionarPistaASuspeito s p = some s1) :
    s1.guarda (L ++ [p]) := by
  obtain ⟨s0, hg, _, rfl⟩ := adicionar_spec s s1 p ha
  obtain ⟨hlt, hlen, htake⟩ := guarda_garantirCapacidade s s0 L h hg
  unfold Suspeito.guarda
  simp only
  refine ⟨by omega, by omega, by simp [hlen], ?_⟩
  rw [take_set_succ _ _ _ (by omega), htake]
  simp

theorem take_adicionarPistaASuspeito (s s1 : Suspeito) (L : List CStr) (p : CStr)
    (h : s.guarda L) (ha : adicionarPistaASuspeito s p = some s1) :
    s1.pistas.take s1.contPistas = s.pistas.take s.contPistas ++ [some p] := by
  have h2 := (guarda_adicionarPistaASuspeito s s1 L p h ha).2.2.2
  rw [h2, h.2.2.2]
  simp

theorem adicionar_criarSuspeito (n p : CStr) :
    adicionarPistaASuspeito (criarSuspeito n) p = some (Suspeito.novo n p) := by
  simp [adicionarPistaASuspeito, garantirCapacidade, criarSuspeito, Suspeito.novo, INT_MAX]

theorem adicionar_definido (s : Suspeito) (p : CStr) (hle : s.contPistas ≤ s.capPistas)
    (hlim : s.contPistas < 2 ^ 30) : ∃ s1, adicionarPistaASuspeito s p = some s1 := by
  have h30 : (2 : Nat) ^ 30 = 1073741824 := by norm_num
  rw [h30] at hlim
  unfold adicionarPistaASuspeito garantirCapacidade
  by_cases hfull : s.contPistas ≥ s.capPistas
  · have hfit : s.capPistas * 2 ≤ INT_MAX := by unfold INT_MAX; omega
    have hinc : s.contPistas + 1 ≤ INT_MAX := by unfold INT_MAX; omega
    simp only [hfull, hfit, if_true, hinc]
    exact ⟨_, rfl⟩
  · have hinc : s.contPistas + 1 ≤ INT_MAX := by unfold INT_MAX; omega
    simp only [hfull, if_false, hinc, if_true]
    exact ⟨_, rfl⟩

theorem garantirCapacidade_cheio (s : Suspeito) (hle : s.contPistas ≤ s.capPistas)
    (hcap : s.capPistas ≤ 2 ^ 30) (hc : s.contPistas = 2 ^ 30) :
    garantirCapacidade s = none := by
  have h30 : (2 : Nat) ^ 30 = 1073741824 := by norm_num
  rw [h30] at hcap hc
  unfold garantirCapacidade
  have hfull : s.contPistas ≥ s.capPistas := by omega
  have hfit : ¬ s.capPistas * 2 ≤ INT_MAX := by unfold INT_MAX; omega
  simp [hfull, hfit]

theorem adicionar_cheio (s : Suspeito) (p : CStr) (hle : s.contPistas ≤ s.capPistas)
    (hcap : s.capPistas ≤ 2 ^ 30) (hc : s.contPistas = 2 ^ 30) :
    adicionarPistaASuspeito s p = none := by
  unfold adicionarPistaASuspeito
  rw [garantirCapacidade_cheio s hle hcap hc]

theorem buscar_eq_none_iff (cad : Cadeia) (n : CStr) :
    buscarSuspeitoBucket cad n = none ↔ ∀ s ∈ cad, s.nome ≠ n := by
  induction cad with
  | nil => simp [buscarSuspeitoBucket]
  | cons p cad ih =>
    unfold buscarSuspeitoBucket
    by_cases hp : strcmp p.nome n = 0
    · have := eq_of_strcmp_eq_zero _ _ hp
      simp only [hp, if_true, List.mem_cons, forall_eq_or_imp]
      simp [this]
    · have hne : p.nome ≠ n := fun e => hp ((strcmp_eq_zero_iff _ _).2 e)
      simp [hp, hne, ih]

theorem buscar_some_spec (cad : Cadeia) (n : CStr) (k : Nat)
    (h : buscarSuspeitoBucket cad n = some k) : ∃ s, cad[k]? = some s ∧ s.nome = n := by
  induction cad generalizing k with
  | nil => simp [buscarSuspeitoBucket] at h
  | cons p cad ih =>
    unfold buscarSuspeitoBucket at h
    by_cases hp : strcmp p.nome n = 0
    · simp only [hp, if_true, Option.some.injEq] at h
      subst h
      exact ⟨p, by simp, eq_of_strcmp_eq_zero _ _ hp⟩
    · simp only [hp, if_false, Option.map_eq_some'] at h
      obtain ⟨k1, hk1, rfl⟩ := h
      obtain ⟨s, hs, hsn⟩ := ih k1 hk1
      exact ⟨s, by rw [List.getElem?_cons_succ]; exact hs, hsn⟩

theorem map_troca_id (cad : Cadeia) (n : CStr) (s1 : Suspeito)
    (h : ∀ s ∈ cad, s.nome ≠ n) :
    cad.map (fun x => if x.nome = n then s1 else x) = cad := by
  conv_rhs => rw [← List.map_id cad]
  apply List.map_congr_left
  intro s hs
  simp [h s hs]

theorem atualizar_buscar (f : Suspeito → Option Suspeito) (cad : Cadeia) (n : CStr) (k : Nat)
    (hnd : (cad.map (fun s => s.nome)).Nodup) (hk : buscarSuspeitoBucket cad n = some k) :
    ∃ s0, s0 ∈ cad ∧ s0.nome = n ∧
      Cadeia.atualizar f cad k =
        (f s0).map (fun s1 => cad.map (fun x => if x.nome = n then s1 else x)) := by
  induction cad generalizing k with
  | nil => simp [buscarSuspeitoBucket] at hk
  | cons p cad ih =>
    rw [List.map_cons, List.nodup_cons] at hnd
    unfold buscarSuspeitoBucket at hk
    by_cases hp : strcmp p.nome n = 0
    · have hpn := eq_of_strcmp_eq_zero _ _ hp
      simp only [hp, if_true, Option.some.injEq] at hk
      subst hk
      have hrest : ∀ s ∈ cad, s.nome ≠ n := by
        intro s hs e
        apply hnd.1
        rw [hpn, ← e]
        exact List.mem_map_of_mem (fun s => s.nome) hs
      refine ⟨p, List.mem_cons_self _ _, hpn, ?_⟩
      simp only [Cadeia.atualizar, List.map_cons, hpn, if_true]
      congr 1
      funext s1
      rw [map_troca_id cad n s1 hrest]
    · have hne : p.nome ≠ n := fun e => hp ((strcmp_eq_zero_iff _ _).2 e)
      simp only [hp, if_false, Option.map_eq_some'] at hk
      obtain ⟨k1, hk1, rfl⟩ := hk
      obtain ⟨s0, hs0, hs0n, heq⟩ := ih k1 hnd.2 hk1
      refine ⟨s0, List.mem_cons_of_mem _ hs0, hs0n, ?_⟩
      simp only [Cadeia.atualizar, heq, Option.map_map, List.map_cons, hne, if_false]
      rfl

theorem inserirHash_achado (comSinal : Bool) (T : HashTable) (p n : CStr)
    (hnd : ((T.bucket (hashNome comSinal n)).map (fun s => s.nome)).Nodup)
    (hex : ∃ s ∈ T.bucket (hashNome comSinal n), s.nome = n) :
    ∃ s0, s0 ∈ T.bucket (hashNome comSinal n) ∧ s0.nome = n ∧
      inserirHash comSinal T p n =
        (adicionarPistaASuspeito s0 p).map (fun s1 =>
          T.comBucket (hashNome comSinal n)
            ((T.bucket (hashNome comSinal n)).map
              (fun x => if x.nome = n then s1 else x))) := by
  cases hb : buscarSuspeitoBucket (T.bucket (hashNome comSinal n)) n with
  | none =>
    obtain ⟨s, hs, hsn⟩ := hex
    exact absurd hsn ((buscar_eq_none_iff _ _).1 hb s hs)
  | some k =>
    obtain ⟨s0, hs0, hs0n, heq⟩ :=
      atualizar_buscar (fun s => adicionarPistaASuspeito s p) _ n k hnd hb
    refine ⟨s0, hs0, hs0n, ?_⟩
    simp only [inserirHash, hb, heq, Option.map_map]
    rfl

theorem inserirHash_novo (comSinal : Bool) (T : HashTable) (p n : CStr)
    (hno : ∀ s ∈ T.bucket (hashNome comSinal n), s.nome ≠ n) :
    inserirHash comSinal T p n = some (T.comBucket (hashNome comSinal n)
      (Suspeito.novo n p :: T.bucket (hashNome comSinal n))) := by
  simp only [inserirHash, (buscar_eq_none_iff _ _).2 hno, Cadeia.atualizar,
    adicionar_criarSuspeito, Option.map_some']

theorem inserirHash_some (comSinal : Bool) (T T1 : HashTable) (p n : CStr)
    (hT : T.bemFormada comSinal) (h : inserirHash comSinal T p n = some T1) :
    (∃ s0 s1, s0 ∈ T.bucket (hashNome comSinal n) ∧ s0.nome = n ∧
        adicionarPistaASuspeito s0 p = some s1 ∧
        ∀ i, T1.bucket i = (T.bucket i).map (fun x => if x.nome = n then s1 else x)) ∨
      ((∀ s ∈ T.bucket (hashNome comSinal n), s.nome ≠ n) ∧
        ∀ i, T1.bucket i =
          if i = hashNome comSinal n then
            Suspeito.novo n p :: T.bucket (hashNome comSinal n)
          else T.bucket i) := by
  by_cases hex : ∃ s ∈ T.bucket (hashNome comSinal n), s.nome = n
  · left
    obtain ⟨s0, hs0, hs0n, heq⟩ := inserirHash_achado comSinal T p n (hT.2 _) hex
    rw [heq] at h
    obtain ⟨s1, hs1, hT1⟩ := Option.map_eq_some'.1 h
    refine ⟨s0, s1, hs0, hs0n, hs1, ?_⟩
    intro i
    rw [← hT1, bucket_comBucket _ _ _ _ (hashNome_lt comSinal n)]
    by_cases hi : i = hashNome comSinal n
    · simp [hi]
    · simp only [hi, if_false]
      refine (map_troca_id _ n s1 ?_).symm
      intro s hs e
      apply hi
      rw [← e]
      exact ((hT.1 i s hs).1).symm
  · right
    have hno : ∀ s ∈ T.bucket (hashNome comSinal n), s.nome ≠ n :=
      fun s hs e => hex ⟨s, hs, e⟩
    rw [inserirHash_novo comSinal T p n hno, Option.some.injEq] at h
    refine ⟨hno, ?_⟩
    intro i
    rw [← h, bucket_comBucket _ _ _ _ (hashNome_lt comSinal n)]

theorem pistasDe_append (l : List (CStr × CStr)) (p n m : CStr) :
    pistasDe (l ++ [(p, n)]) m = pistasDe l m ++ (if n = m then [p] else []) := by
  unfold pistasDe
  by_cases h : n = m <;> simp [List.filter_append, List.filter_cons, h]

theorem pistasDe_eq_nil (l : List (CStr × CStr)) (m : CStr)
    (h : m ∉ l.map (fun c => c.2)) : pistasDe l m = [] := by
  unfold pistasDe
  rw [List.map_eq_nil_iff, List.filter_eq_nil_iff]
  intro c hc
  simp only [decide_eq_true_eq]
  intro e
  exact h (List.mem_map.2 ⟨c, hc, e⟩)

theorem pistasDe_length_le (l : List (CStr × CStr)) (m : CStr) :
    (pistasDe l m).length ≤ l.length := by
  unfold pistasDe
  rw [List.length_map]
  exact List.length_filter_le _ _

theorem bucket_tabelaVazia (i : Nat) : tabelaVazia.bucket i = [] := by
  unfold HashTable.bucket tabelaVazia
  simp only [List.getD_eq_getElem?_getD, List.getElem?_replicate]
  split_ifs <;> rfl

theorem tabelaOk_vazia (comSinal : Bool) : tabelaOk comSinal [] tabelaVazia := by
  refine ⟨?_, ?_, ?_⟩
  · intro i s hs
    rw [bucket_tabelaVazia i] at hs
    simp at hs
  · intro i
    rw [bucket_tabelaVazia i]
    simp
  · intro n hn
    simp at hn

theorem bemFormada_of_tabelaOk (comSinal : Bool) (l : List (CStr × CStr)) (T : HashTable)
    (hT : tabelaOk comSinal l T) : T.bemFormada comSinal :=
  ⟨fun i s hs => ⟨(hT.1 i s hs).1, _, (hT.1 i s hs).2.2⟩, hT.2.1⟩

theorem tabelaOk_inserirHash (comSinal : Bool) (l : List (CStr × CStr)) (T T1 : HashTable)
    (p n : CStr) (hT : tabelaOk comSinal l T) (h : inserirHash comSinal T p n = some T1) :
    tabelaOk comSinal (l ++ [(p, n)]) T1 := by
  obtain ⟨h1, h2, h3⟩ := hT
  have hbf : T.bemFormada comSinal := bemFormada_of_tabelaOk comSinal l T ⟨h1, h2, h3⟩
  rcases inserirHash_some comSinal T T1 p n hbf h with
    ⟨s0, s1, hs0, hs0n, hadd, hbk⟩ | ⟨hno, hbk⟩
  · have hs1n : s1.nome = n := by
      rw [nome_adicionarPistaASuspeito s0 s1 p hadd]; exact hs0n
    have hgn : ∀ x : Suspeito, (if x.nome = n then s1 else x).nome = x.nome := by
      intro x
      split_ifs with hx
      · rw [hs1n, hx]
      · rfl
    refine ⟨?_, ?_, ?_⟩
    · intro i sx hsx
      rw [hbk i] at hsx
      obtain ⟨s, hs, rfl⟩ := List.mem_map.1 hsx
      obtain ⟨ha, hb, hc⟩ := h1 i s hs
      by_cases hsn : s.nome = n
      · simp only [hsn, if_true, hs1n]
        refine ⟨by rw [← hsn]; exact ha, by simp, ?_⟩
        rw [pistasDe_append, if_pos rfl]
        have hc0 := (h1 _ s0 hs0).2.2
        rw [hs0n] at hc0
        exact guarda_adicionarPistaASuspeito s0 s1 _ p hc0 hadd
      · simp only [hsn, if_false]
        refine ⟨ha, by simp only [List.map_append, List.mem_append]; exact Or.inl hb, ?_⟩
        rw [pistasDe_append, if_neg (fun e => hsn e.symm), List.append_nil]
        exact hc
    · intro i
      rw [hbk i, List.map_map]
      have : ((fun s : Suspeito => s.nome) ∘ fun x => if x.nome = n then s1 else x) =
          fun s => s.nome := by
        funext s
        exact hgn s
      rw [this]
      exact h2 i
    · intro m hm
      have hsrc : ∃ s ∈ T.bucket (hashNome comSinal m), s.nome = m := by
        simp only [List.map_append, List.mem_append, List.map_cons, List.map_nil,
          List.mem_singleton] at hm
        rcases hm with hm | hm
        · exact h3 m hm
        · rw [hm]; exact ⟨s0, hs0, hs0n⟩
      obtain ⟨s, hs, hsm⟩ := hsrc
      refine ⟨if s.nome = n then s1 else s, ?_, ?_⟩
      · rw [hbk]
        exact List.mem_map_of_mem (fun x => if x.nome = n then s1 else x) hs
      · rw [hgn s]; exact hsm
  · have hnl : n ∉ l.map (fun c => c.2) := by
      intro hn
      obtain ⟨s, hs, hsn⟩ := h3 n hn
      exact hno s hs hsn
    have hold : ∀ i, ∀ s ∈ T.bucket i, s.nome ≠ n := by
      intro i s hs e
      apply hnl
      rw [← e]
      exact (h1 i s hs).2.1
    refine ⟨?_, ?_, ?_⟩
    · intro i sx hsx
      rw [hbk i] at hsx
      have hcase : (i = hashNome comSinal n ∧ sx = Suspeito.novo n p) ∨
          sx ∈ T.bucket i := by
        by_cases hi : i = hashNome comSinal n
        · simp only [hi, if_true, List.mem_cons] at hsx
          rcases hsx with hx | hx
          · exact Or.inl ⟨hi, hx⟩
          · right; rw [hi]; exact hx
        · simp only [hi, if_false] at hsx
          exact Or.inr hsx
      rcases hcase with ⟨hi, rfl⟩ | hs
      · have hnm : (Suspeito.novo n p).nome = n := rfl
        rw [hnm]
        refine ⟨hi.symm, by simp, ?_⟩
        rw [pistasDe_append, if_pos rfl, pistasDe_eq_nil l n hnl]
        exact guarda_novo n p
      · obtain ⟨ha, hb, hc⟩ := h1 i sx hs
        refine ⟨ha, by simp only [List.map_append, List.mem_append]; exact Or.inl hb, ?_⟩
        rw [pistasDe_append, if_neg (fun e => hold i sx hs e.symm), List.append_nil]
        exact hc
    · intro i
      rw [hbk i]
      by_cases hi : i = hashNome comSinal n
      · simp only [hi, if_true, List.map_cons, List.nodup_cons]
        refine ⟨?_, h2 _⟩
        intro hmem
        obtain ⟨s, hs, hsn⟩ := List.mem_map.1 hmem
        exact hno s hs hsn
      · simp only [hi, if_false]
        exact h2 i
    · intro m hm
      simp only [List.map_append, List.mem_append, List.map_cons, List.map_nil,
        List.mem_singleton] at hm
      rcases hm with hm | hm
      · obtain ⟨s, hs, hsm⟩ := h3 m hm
        refine ⟨s, ?_, hsm⟩
        rw [hbk]
        split_ifs with hi
        · rw [← hi]; exact List.mem_cons_of_mem _ hs
        · exact hs
      · subst hm
        refine ⟨Suspeito.novo m p, ?_, rfl⟩
        rw [hbk, if_pos rfl]
        exact List.mem_cons_self _ _

theorem inserirHashDesde_append (comSinal : Bool) (T : HashTable) (l : List (CStr × CStr))
    (c : CStr × CStr) :
    inserirHashDesde comSinal T (l ++ [c]) =
      (inserirHashDesde comSinal T l).bind (fun T1 => inserirHash comSinal T1 c.1 c.2) := by
  induction l generalizing T with
  | nil =>
    simp only [List.nil_append, inserirHashDesde, Option.some_bind]
    cases inserirHash comSinal T c.1 c.2 <;> rfl
  | cons a l ih =>
    simp only [List.cons_append, inserirHashDesde]
    cases inserirHash comSinal T a.1 a.2 with
    | none => rfl
    | some T1 => exact ih T1

theorem inserirHashSeq_append (comSinal : Bool) (l : List (CStr × CStr)) (p n : CStr)
    (T : HashTable) :
    inserirHashSeq comSinal (l ++ [(p, n)]) = some T ↔
      ∃ T0, inserirHashSeq comSinal l = some T0 ∧ inserirHash comSinal T0 p n = some T := by
  unfold inserirHashSeq
  rw [inserirHashDesde_append, Option.bind_eq_some]

theorem tabelaOk_inserirHashSeq (comSinal : Bool) (l : List (CStr × CStr)) (T : HashTable)
    (h : inserirHashSeq comSinal l = some T) : tabelaOk comSinal l T := by
  induction l using List.reverseRecOn generalizing T with
  | nil =>
    have : T = tabelaVazia := by
      have h0 : inserirHashSeq comSinal [] = some tabelaVazia := rfl
      rw [h0] at h
      exact (Option.some.inj h).symm
    rw [this]
    exact tabelaOk_vazia comSinal
  | append_singleton l c ih =>
    obtain ⟨p, n⟩ := c
    obtain ⟨T0, h0, h1⟩ := (inserirHashSeq_append comSinal l p n T).1 h
    exact tabelaOk_inserirHash comSinal l T0 T p n (ih T0 h0) h1

theorem bemFormada_inserirHashSeq (comSinal : Bool) (l : List (CStr × CStr)) (T : HashTable)
    (h : inserirHashSeq comSinal l = some T) : T.bemFormada comSinal :=
  bemFormada_of_tabelaOk comSinal l T (tabelaOk_inserirHashSeq comSinal l T h)

theorem inserirHash_definido (comSinal : Bool) (T : HashTable) (p n : CStr)
    (hT : T.bemFormada comSinal)
    (hlim : ∀ s ∈ T.bucket (hashNome comSinal n), s.nome = n → s.contPistas < 2 ^ 30) :
    ∃ T1, inserirHash comSinal T p n = some T1 := by
  by_cases hex : ∃ s ∈ T.bucket (hashNome comSinal n), s.nome = n
  · obtain ⟨s0, hs0, hs0n, heq⟩ := inserirHash_achado comSinal T p n (hT.2 _) hex
    obtain ⟨L, hL⟩ := (hT.1 _ s0 hs0).2
    obtain ⟨s1, hs1⟩ := adicionar_definido s0 p hL.2.1 (hlim s0 hs0 hs0n)
    rw [heq, hs1]
    exact ⟨_, rfl⟩
  · have hno : ∀ s ∈ T.bucket (hashNome comSinal n), s.nome ≠ n :=
      fun s hs e => hex ⟨s, hs, e⟩
    exact ⟨_, inserirHash_novo comSinal T p n hno⟩

theorem inserirHashSeq_definido (comSinal : Bool) (l : List (CStr × CStr))
    (hlim : ∀ n, (pistasDe l n).length ≤ 2 ^ 30) : ∃ T, inserirHashSeq comSinal l = some T := by
  induction l using List.reverseRecOn with
  | nil => exact ⟨tabelaVazia, rfl⟩
  | append_singleton l c ih =>
    obtain ⟨p, n⟩ := c
    have hpre : ∀ m, (pistasDe l m).length ≤ 2 ^ 30 := by
      intro m
      have := hlim m
      rw [pistasDe_append, List.length_append] at this
      omega
    obtain ⟨T0, h0⟩ := ih hpre
    have hT := tabelaOk_inserirHashSeq comSinal l T0 h0
    have hn : (pistasDe l n).length < 2 ^ 30 := by
      have := hlim n
      rw [pistasDe_append, if_pos rfl, List.length_append, List.length_singleton] at this
      omega
    obtain ⟨T1, h1⟩ := inserirHash_definido comSinal T0 p n
      (bemFormada_of_tabelaOk comSinal l T0 hT) (by
        intro s hs hsn
        have hg := (hT.1 _ s hs).2.2
        rw [guarda_cont s _ hg, hsn]
        exact hn)
    exact ⟨T1, (inserirHashSeq_append comSinal l p n T1).2 ⟨T0, h0, h1⟩⟩

theorem index_unico {α : Type} (l : List α) (hnd : l.Nodup) (i j : Nat) (a : α)
    (hi : l[i]? = some a) (hj : l[j]? = some a) : i = j := by
  induction l generalizing i j with
  | nil => simp at hi
  | cons x l ih =>
    rw [List.nodup_cons] at hnd
    cases i with
    | zero =>
      cases j with
      | zero => rfl
      | succ j =>
        simp only [List.getElem?_cons_zero, Option.some.injEq, List.getElem?_cons_succ] at hi hj
        exact absurd (hi ▸ List.getElem?_mem hj) hnd.1
    | succ i =>
      cases j with
      | zero =>
        simp only [List.getElem?_cons_zero, Option.some.injEq, List.getElem?_cons_succ] at hi hj
        exact absurd (hj ▸ List.getElem?_mem hi) hnd.1
      | succ j =>
        simp only [List.getElem?_cons_succ] at hi hj
        rw [ih hnd.2 i j hi hj]

theorem mem_bucket_of_entrada (T : HashTable) (r : Ref) (s : Suspeito)
    (h : T.entrada r = some s) : s ∈ T.bucket r.1 :=
  List.getElem?_mem h

theorem entrada_unica_bf (comSinal : Bool) (T : HashTable) (hT : T.bemFormada comSinal)
    (r1 r2 : Ref) (s1 s2 : Suspeito) (h1 : T.entrada r1 = some s1)
    (h2 : T.entrada r2 = some s2) (hn : s1.nome = s2.nome) : r1 = r2 ∧ s1 = s2 := by
  have e1 : hashNome comSinal s1.nome = r1.1 :=
    (hT.1 r1.1 s1 (mem_bucket_of_entrada _ r1 s1 h1)).1
  have e2 : hashNome comSinal s2.nome = r2.1 :=
    (hT.1 r2.1 s2 (mem_bucket_of_entrada _ r2 s2 h2)).1
  obtain ⟨i1, j1⟩ := r1
  obtain ⟨i2, j2⟩ := r2
  simp only at e1 e2
  have hi : i1 = i2 := by rw [← e1, ← e2, hn]
  subst hi
  unfold HashTable.entrada at h1 h2
  simp only at h1 h2
  have k1 : ((T.bucket i1).map (fun s => s.nome))[j1]? = some s2.nome := by
    rw [List.getElem?_map, h1]
    simp [hn]
  have k2 : ((T.bucket i1).map (fun s => s.nome))[j2]? = some s2.nome := by
    rw [List.getElem?_map, h2]
    rfl
  have hj := index_unico _ (hT.2 i1) j1 j2 s2.nome k1 k2
  subst hj
  rw [h1] at h2
  exact ⟨rfl, Option.some.inj h2⟩

theorem entrada_of_mem_bucket (T : HashTable) (i : Nat) (s : Suspeito) (h : s ∈ T.bucket i) :
    ∃ j, T.entrada (i, j) = some s :=
  List.mem_iff_getElem?.1 h

/-- C8, as the code has it: for every sequence of `inserirHash (pista, nome)` calls from the
empty table in which no name is used in more than `2 ^ 30` calls, the calls have a resulting
table, and in it every name that occurs in a call has exactly one entry; the first
`contPistas` slots of its clue array hold the clue texts of the calls made with that name, in
call order and with repetitions, and its `contPistas` is the number of those calls. -/
theorem inserirHash_lista_de_pistas (comSinal : Bool) (chamadas : List (CStr × CStr))
    (nome : CStr) (hlim : ∀ n, (pistasDe chamadas n).length ≤ 2 ^ 30)
    (h : nome ∈ chamadas.map (fun c => c.2)) :
    ∃ T, inserirHashSeq comSinal chamadas = some T ∧
      ∃ r s, T.entrada r = some s ∧ s.nome = nome ∧
        (∀ r1 s1, T.entrada r1 = some s1 → s1.nome = nome → r1 = r) ∧
        s.pistas.take s.contPistas = (pistasDe chamadas nome).map some ∧
        s.contPistas = (chamadas.filter (fun c => decide (c.2 = nome))).length := by
  obtain ⟨T, hrun⟩ := inserirHashSeq_definido comSinal chamadas hlim
  have hT := tabelaOk_inserirHashSeq comSinal chamadas T hrun
  have hbf := bemFormada_of_tabelaOk comSinal chamadas T hT
  obtain ⟨h1, h2, h3⟩ := hT
  obtain ⟨s, hs, hsn⟩ := h3 nome h
  obtain ⟨j, hj⟩ := entrada_of_mem_bucket T _ s hs
  have hg := (h1 _ s hs).2.2
  rw [hsn] at hg
  refine ⟨T, hrun, (hashNome comSinal nome, j), s, hj, hsn, ?_, hg.2.2.2, ?_⟩
  · intro r1 s1 hr1 hs1n
    exact (entrada_unica_bf comSinal T hbf r1 _ s1 s hr1 hj (by rw [hs1n, hsn])).1
  · rw [guarda_cont s _ hg]
    unfold pistasDe
    rw [List.length_map]

theorem inserirHash_lista_de_pistas_witness :
    ∃ T, inserirHashSeq true cenario = some T ∧
      ∃ r s, T.entrada r = some s ∧ s.nome = sMaria ∧
        (∀ r1 s1, T.entrada r1 = some s1 → s1.nome = sMaria → r1 = r) ∧
        s.pistas.take s.contPistas = (pistasDe cenario sMaria).map some ∧
        s.contPistas = (cenario.filter (fun c => decide (c.2 = sMaria))).length :=
  inserirHash_lista_de_pistas true cenario sMaria
    (fun n => Nat.le_trans (pistasDe_length_le cenario n) (by decide)) (by decide)

/-! ## The limit of the `int` counters -/

theorem entradas_inducao (P : Suspeito → Prop) (h0 : ∀ n p, P (Suspeito.novo n p))
    (hs : ∀ s s1 p, P s → adicionarPistaASuspeito s p = some s1 → P s1)
    (comSinal : Bool) (l : List (CStr × CStr)) (T : HashTable)
    (h : inserirHashSeq comSinal l = some T) : ∀ i, ∀ s ∈ T.bucket i, P s := by
  induction l using List.reverseRecOn generalizing T with
  | nil =>
    intro i s hmem
    have h0 : inserirHashSeq comSinal [] = some tabelaVazia := rfl
    rw [h0] at h
    rw [← Option.some.inj h, bucket_tabelaVazia i] at hmem
    simp at hmem
  | append_singleton l c ih =>
    obtain ⟨p, n⟩ := c
    obtain ⟨T0, hrun0, h1⟩ := (inserirHashSeq_append comSinal l p n T).1 h
    have hbf := bemFormada_inserirHashSeq comSinal l T0 hrun0
    intro i s hmem
    rcases inserirHash_some comSinal T0 T p n hbf h1 with
      ⟨s0, s1, hs0, _, hadd, hbk⟩ | ⟨_, hbk⟩
    · rw [hbk i] at hmem
      obtain ⟨sx, hsx, rfl⟩ := List.mem_map.1 hmem
      split_ifs
      · exact hs s0 s1 p (ih T0 hrun0 _ s0 hs0) hadd
      · exact ih T0 hrun0 i sx hsx
    · rw [hbk i] at hmem
      by_cases hi : i = hashNome comSinal n
      · simp only [hi, if_true, List.mem_cons] at hmem
        rcases hmem with hx | hx
        · rw [hx]; exact h0 n p
        · exact ih T0 hrun0 _ s hx
      · simp only [hi, if_false] at hmem
        exact ih T0 hrun0 i s hmem

theorem capPistas_dobrada (comSinal : Bool) (l : List (CStr × CStr)) (T : HashTable)
    (h : inserirHashSeq comSinal l = some T) :
    ∀ i, ∀ s ∈ T.bucket i, ∃ k, k ≤ 29 ∧ s.capPistas = 2 * 2 ^ k := by
  refine entradas_inducao (fun s => ∃ k, k ≤ 29 ∧ s.capPistas = 2 * 2 ^ k) ?_ ?_ comSinal l T h
  · intro n p
    exact ⟨0, by omega, rfl⟩
  · rintro s s1 p ⟨k, hk, hcap⟩ hadd
    obtain ⟨s0, hg, _, rfl⟩ := adicionar_spec s s1 p hadd
    obtain ⟨_, _, hcase⟩ := garantirCapacidade_spec s s0 hg
    rcases hcase with ⟨_, rfl⟩ | ⟨_, hfit, hcap0, _⟩
    · exact ⟨k, hk, hcap⟩
    · refine ⟨k + 1, ?_, ?_⟩
      · by_contra hcon
        have hge : 29 ≤ k := by omega
        have hpow : (2 : Nat) ^ 29 ≤ 2 ^ k := Nat.pow_le_pow_right (by omega) hge
        have h29 : (2 : Nat) ^ 29 = 536870912 := by norm_num
        rw [h29] at hpow
        rw [hcap] at hfit
        unfold INT_MAX at hfit
        omega
      · simp only
        rw [hcap0, hcap, pow_succ]
        omega

theorem capPistas_le (comSinal : Bool) (l : List (CStr × CStr)) (T : HashTable)
    (h : inserirHashSeq comSinal l = some T) (i : Nat) (s : Suspeito) (hs : s ∈ T.bucket i) :
    s.capPistas ≤ 2 ^ 30 := by
  obtain ⟨k, hk, hcap⟩ := capPistas_dobrada comSinal l T h i s hs
  have hpow : (2 : Nat) ^ k ≤ 2 ^ 29 := Nat.pow_le_pow_right (by omega) hk
  have h29 : (2 : Nat) ^ 29 = 536870912 := by norm_num
  have h30 : (2 : Nat) ^ 30 = 1073741824 := by norm_num
  rw [h29] at hpow
  rw [hcap, h30]
  omega

theorem inserirHash_estoura (comSinal : Bool) (l : List (CStr × CStr)) (T : HashTable)
    (p n : CStr) (h : inserirHashSeq comSinal l = some T)
    (hfull : (pistasDe l n).length = 2 ^ 30) :
    (∃ s ∈ T.bucket (hashNome comSinal n), s.nome = n ∧ s.contPistas = 2 ^ 30 ∧
        garantirCapacidade s = none) ∧
      inserirHash comSinal T p n = none := by
  have hT := tabelaOk_inserirHashSeq comSinal l T h
  have hn : n ∈ l.map (fun c => c.2) := by
    by_contra hcon
    rw [pistasDe_eq_nil l n hcon] at hfull
    have h30 : (2 : Nat) ^ 30 = 1073741824 := by norm_num
    rw [h30] at hfull
    simp at hfull
  have hex := hT.2.2 n hn
  obtain ⟨s0, hs0, hs0n, heq⟩ := inserirHash_achado comSinal T p n (hT.2.1 _) hex
  have hg := (hT.1 _ s0 hs0).2.2
  have hc : s0.contPistas = 2 ^ 30 := by
    rw [guarda_cont s0 _ hg, hs0n, hfull]
  have hcap := capPistas_le comSinal l T h _ s0 hs0
  refine ⟨⟨s0, hs0, hs0n, hc, garantirCapacidade_cheio s0 hg.2.1 hcap hc⟩, ?_⟩
  rw [heq, adicionar_cheio s0 p hg.2.1 hcap hc]
  rfl

theorem pistasDe_replicate (N : Nat) (p n : CStr) :
    pistasDe (List.replicate N (p, n)) n = List.replicate N p := by
  unfold pistasDe
  rw [List.filter_replicate_of_pos (by simp), List.map_replicate]

theorem pistasDe_replicate_length_le (N : Nat) (p n m : CStr) :
    (pistasDe (List.replicate N (p, n)) m).length ≤ N := by
  have := pistasDe_length_le (List.replicate N (p, n)) m
  rw [List.length_replicate] at this
  exact this

theorem replicate_estoura (comSinal : Bool) (N : Nat) (p n : CStr) (hN : N = 2 ^ 30) :
    (∃ T, inserirHashSeq comSinal (List.replicate N (p, n)) = some T ∧
        T.bemFormada comSinal ∧
        (∃ r s, T.entrada r = some s ∧ s.nome = n ∧ garantirCapacidade s = none) ∧
        inserirHash comSinal T p n = none) ∧
      inserirHashSeq comSinal (List.replicate (N + 1) (p, n)) = none := by
  obtain ⟨T, hrun⟩ := inserirHashSeq_definido comSinal (List.replicate N (p, n))
    (fun m => by rw [← hN]; exact pistasDe_replicate_length_le N p n m)
  have hfull : (pistasDe (List.replicate N (p, n)) n).length = 2 ^ 30 := by
    rw [pistasDe_replicate, List.length_replicate, hN]
  obtain ⟨⟨s, hs, hsn, _, hgar⟩, hnone⟩ := inserirHash_estoura comSinal _ T p n hrun hfull
  obtain ⟨j, hj⟩ := entrada_of_mem_bucket T _ s hs
  refine ⟨⟨T, hrun, bemFormada_inserirHashSeq comSinal _ T hrun, ⟨_, s, hj, hsn, hgar⟩,
    hnone⟩, ?_⟩
  cases hrun1 : inserirHashSeq comSinal (List.replicate (N + 1) (p, n)) with
  | none => rfl
  | some T1 =>
    rw [List.replicate_succ'] at hrun1
    obtain ⟨T0, h0, h1⟩ := (inserirHashSeq_append comSinal _ p n T1).1 hrun1
    rw [hrun] at h0
    rw [← Option.some.inj h0, hnone] at h1
    exact absurd h1 (by simp)

/-- C8 fails as stated: `2 ^ 30 + 1` calls with the clue "Livros deslocados" for Maria.
After `2 ^ 30` of them `contPistas = capPistas = 2 ^ 30`, and the next call doubles
`capPistas` beyond the largest `int`: the calls have no resulting table. -/
theorem lista_de_pistas_contraexemplo :
    ¬ ListaDePistasComoDita true (List.replicate (2 ^ 30 + 1) (sLivros, sMaria)) sMaria := by
  rintro ⟨T, hT, _⟩
  rw [(replicate_estoura true (2 ^ 30) sLivros sMaria rfl).2] at hT
  exact absurd hT (by simp)

/-! ## Creation order of the entries -/

theorem criadoEm_lt_length_iff (l : List (CStr × CStr)) (n : CStr) :
    criadoEm l n < l.length ↔ n ∈ l.map (fun c => c.2) := by
  unfold criadoEm
  rw [List.findIdx_lt_length]
  simp only [decide_eq_true_eq, List.mem_map]

theorem criadoEm_append_of_mem (l : List (CStr × CStr)) (c : CStr × CStr) (n : CStr)
    (h : n ∈ l.map (fun c => c.2)) : criadoEm (l ++ [c]) n = criadoEm l n := by
  have hlt := (criadoEm_lt_length_iff l n).2 h
  unfold criadoEm at hlt ⊢
  rw [List.findIdx_append, if_pos hlt]

theorem criadoEm_append_novo (l : List (CStr × CStr)) (p n : CStr)
    (h : n ∉ l.map (fun c => c.2)) : criadoEm (l ++ [(p, n)]) n = l.length := by
  have hge : ¬ criadoEm l n < l.length := fun hlt => h ((criadoEm_lt_length_iff l n).1 hlt)
  unfold criadoEm at hge ⊢
  rw [List.findIdx_append, if_neg hge]
  simp [List.findIdx_cons]

theorem porCriacao_vazia : porCriacao [] tabelaVazia := by
  intro i
  rw [bucket_tabelaVazia i]
  exact List.Pairwise.nil

theorem porCriacao_inserirHash (comSinal : Bool) (l : List (CStr × CStr)) (T T1 : HashTable)
    (p n : CStr) (hT : tabelaOk comSinal l T) (hc : porCriacao l T)
    (h : inserirHash comSinal T p n = some T1) :
    porCriacao (l ++ [(p, n)]) T1 := by
  have key : ∀ i, ∀ a ∈ T.bucket i, criadoEm (l ++ [(p, n)]) a.nome = criadoEm l a.nome :=
    fun i a ha => criadoEm_append_of_mem l (p, n) a.nome (hT.1 i a ha).2.1
  have hold : ∀ i, (T.bucket i).Pairwise
      (fun a b => criadoEm (l ++ [(p, n)]) b.nome < criadoEm (l ++ [(p, n)]) a.nome) := by
    intro i
    refine (hc i).imp_of_mem ?_
    intro a b ha hb hab
    rw [key i a ha, key i b hb]
    exact hab
  intro i
  rcases inserirHash_some comSinal T T1 p n (bemFormada_of_tabelaOk comSinal l T hT) h with
    ⟨s0, s1, _, hs0n, hadd, hbk⟩ | ⟨hno, hbk⟩
  · rw [hbk i, List.pairwise_map]
    refine (hold i).imp ?_
    intro a b hab
    have hn : ∀ x : Suspeito, (if x.nome = n then s1 else x).nome = x.nome := by
      intro x
      split_ifs with hx
      · rw [nome_adicionarPistaASuspeito s0 s1 p hadd, hs0n, hx]
      · rfl
    rw [hn a, hn b]
    exact hab
  · have hnl : n ∉ l.map (fun c => c.2) := by
      intro hn
      obtain ⟨s, hs, hsn⟩ := hT.2.2 n hn
      exact hno s hs hsn
    rw [hbk i]
    by_cases hi : i = hashNome comSinal n
    · simp only [hi, if_true, List.pairwise_cons]
      refine ⟨?_, hold _⟩
      intro a ha
      have hnm : (Suspeito.novo n p).nome = n := rfl
      rw [hnm, criadoEm_append_novo l p n hnl, key _ a ha]
      exact (criadoEm_lt_length_iff l a.nome).2 (hT.1 _ a ha).2.1
    · simp only [hi, if_false]
      exact hold i

theorem porCriacao_inserirHashSeq (comSinal : Bool) (l : List (CStr × CStr)) (T : HashTable)
    (h : inserirHashSeq comSinal l = some T) : porCriacao l T := by
  induction l using List.reverseRecOn generalizing T with
  | nil =>
    have h0 : inserirHashSeq comSinal [] = some tabelaVazia := rfl
    rw [h0] at h
    rw [← Option.some.inj h]
    exact porCriacao_vazia
  | append_singleton l c ih =>
    obtain ⟨p, n⟩ := c
    obtain ⟨T0, h0, h1⟩ := (inserirHashSeq_append comSinal l p n T).1 h
    exact porCriacao_inserirHash comSinal l T0 T p n
      (tabelaOk_inserirHashSeq comSinal l T0 h0) (ih T0 h0) h1

theorem criadoEm_posicao (comSinal : Bool) (l : List (CStr × CStr)) (T : HashTable)
    (h : inserirHashSeq comSinal l = some T) (i j k : Nat)
    (a b : Suspeito) (ha : T.entrada (i, j) = some a)
    (hb : T.entrada (i, k) = some b) (hjk : j < k) :
    criadoEm l b.nome < criadoEm l a.nome := by
  have hpw := porCriacao_inserirHashSeq comSinal l T h i
  rw [List.pairwise_iff_getElem] at hpw
  unfold HashTable.entrada at ha hb
  simp only at ha hb
  obtain ⟨hj, hja⟩ := List.getElem?_eq_some_iff.1 ha
  obtain ⟨hk, hkb⟩ := List.getElem?_eq_some_iff.1 hb
  have := hpw j k hj hk hjk
  rw [hja, hkb] at this
  exact this

/-- C11, as the code has it: in a table built from the empty one by `inserirHash` calls, if
an entry has the same clue count as the entry `suspeitoMaisProvavel` returns, then the
returned entry is in a bucket of lower index, or both are in the same bucket and the
returned one was created no earlier. A tie inside a bucket goes to the entry created
last. -/
theorem suspeitoMaisProvavel_desempate_criacao (comSinal : Bool)
    (chamadas : List (CStr × CStr)) (T : HashTable)
    (hrun : inserirHashSeq comSinal chamadas = some T) (r : Ref) (s : Suspeito)
    (h : suspeitoMaisProvavel T = some (r, s)) :
    ∀ r1 s1, T.entrada r1 = some s1 →
      s1.contPistas = s.contPistas →
      hashNome comSinal s.nome < hashNome comSinal s1.nome ∨
        (hashNome comSinal s.nome = hashNome comSinal s1.nome ∧
          criadoEm chamadas s1.nome ≤ criadoEm chamadas s.nome) := by
  intro r1 s1 hr1 hcont
  obtain ⟨hr, _, hant⟩ := suspeitoMaisProvavel_spec _ r s h
  have hT := tabelaOk_inserirHashSeq comSinal chamadas T hrun
  have hs : hashNome comSinal s.nome = r.1 := (hT.1 r.1 s (mem_bucket_of_entrada _ r s hr)).1
  have hs1 : hashNome comSinal s1.nome = r1.1 :=
    (hT.1 r1.1 s1 (mem_bucket_of_entrada _ r1 s1 hr1)).1
  rw [hs, hs1]
  obtain ⟨i, j⟩ := r
  obtain ⟨i1, j1⟩ := r1
  simp only
  have hnot : ¬ Ref.antes (i1, j1) (i, j) := by
    intro ha
    have := hant (i1, j1) s1 hr1 ha
    omega
  unfold Ref.antes at hnot
  simp only at hnot
  by_cases hii : i < i1
  · exact Or.inl hii
  · have hi : i = i1 := by omega
    subst hi
    refine Or.inr ⟨rfl, ?_⟩
    by_cases hjj : j = j1
    · subst hjj
      rw [hr] at hr1
      cases hr1
      exact Nat.le_refl _
    · exact Nat.le_of_lt
        (criadoEm_posicao comSinal chamadas T hrun i j j1 s s1 hr hr1 (by omega))

theorem suspeitoMaisProvavel_desempate_criacao_witness :
    hashNome true sMarta < hashNome true sMaria ∨
      (hashNome true sMarta = hashNome true sMaria ∧
        criadoEm empate sMaria ≤ criadoEm empate sMarta) :=
  suspeitoMaisProvavel_desempate_criacao true empate tabelaEmpate (by decide) (12, 0)
    ⟨sMarta, [some sPegadasEntrada, none], 1, 2⟩ (by decide) (12, 1)
    ⟨sMaria, [some sLivros, none], 1, 2⟩ (by decide) rfl

/-- C11 fails as stated: Maria is created before Marta, each gets one clue, both are in
bucket 12, and `suspeitoMaisProvavel` returns Marta, the entry created last. -/
theorem desempate_por_criacao_contraexemplo : ¬ DesempatePorCriacao true empate := by
  intro hclaim
  have := hclaim tabelaEmpate (by decide) (12, 0)
    ⟨sMarta, [some sPegadasEntrada, none], 1, 2⟩ (by decide) (12, 1)
    ⟨sMaria, [some sLivros, none], 1, 2⟩ (by decide) rfl
  revert this
  decide

/-! ## The listing of the table -/

theorem listarCadeia_eq_map (cad : Cadeia) : listarCadeia cad = cad.map linhaDe := by
  induction cad with
  | nil => rfl
  | cons p cad ih => simp [listarCadeia, ih]

theorem map_refs (i : Nat) (cad : Cadeia) (j : Nat) :
    (Cadeia.refs i cad j).map (fun e => e.2) = cad := by
  induction cad generalizing j with
  | nil => rfl
  | cons p cad ih => simp [Cadeia.refs, ih]

theorem listarAssociacoes_eq_map (T : HashTable) :
    listarAssociacoes T = T.entradas.map (fun e => linhaDe e.2) := by
  unfold listarAssociacoes HashTable.entradas
  rw [List.map_flatMap]
  congr 1
  funext i
  rw [listarCadeia_eq_map]
  conv_lhs => rw [← map_refs i (T.bucket i) 0]
  rw [List.map_map]
  rfl

theorem range_map_getD {α : Type} (l : List (Option α)) (n : Nat) (h : n ≤ l.length) :
    (List.range n).map (fun j => l.getD j none) = l.take n := by
  induction n with
  | zero => simp
  | succ n ih =>
    have hn : n < l.length := by omega
    rw [List.range_succ, List.map_append, ih (by omega), List.take_succ,
      List.getElem?_eq_getElem hn]
    simp [List.getD_eq_getElem?_getD, List.getElem?_eq_getElem hn]

theorem linhaDe_of_guarda (s : Suspeito) (L : List CStr) (h : s.guarda L) :
    linhaDe s = (s.nome, L.length, L.map some) := by
  have hcont := guarda_cont s L h
  obtain ⟨_, hle, hlen, htake⟩ := h
  unfold linhaDe
  rw [range_map_getD _ _ (by omega), htake, hcont]

theorem entrada_unica (comSinal : Bool) (l : List (CStr × CStr)) (T : HashTable)
    (h : inserirHashSeq comSinal l = some T) (r1 r2 : Ref)
    (s1 s2 : Suspeito) (h1 : T.entrada r1 = some s1)
    (h2 : T.entrada r2 = some s2) (hn : s1.nome = s2.nome) :
    r1 = r2 :=
  (entrada_unica_bf comSinal T (bemFormada_inserirHashSeq comSinal l T h) r1 r2 s1 s2 h1 h2
    hn).1

theorem nodup_nomes_entradas (comSinal : Bool) (l : List (CStr × CStr)) (T : HashTable)
    (h : inserirHashSeq comSinal l = some T) :
    (T.entradas.map (fun e => e.2.nome)).Nodup := by
  unfold List.Nodup
  rw [List.pairwise_map]
  refine (pairwise_entradas T).imp_of_mem ?_
  rintro ⟨r1, s1⟩ ⟨r2, s2⟩ hm1 hm2 hant hn
  have := entrada_unica comSinal l T h r1 r2 s1 s2 ((mem_entradas _ r1 s1).1 hm1)
    ((mem_entradas _ r2 s2).1 hm2) hn
  subst this
  unfold Ref.antes at hant
  simp only at hant
  omega

/-- C12: `listarAssociacoes` prints one item per entry of the table, as name, clue count and
the clues in stored order, following the buckets by index and each chain from its head, so
every pointer is met once. In a table built by calls from the empty table each name that was
called appears in exactly one item, with the clues of its calls in call order, and inside a
bucket an entry created later comes before an entry created earlier. -/
theorem listarAssociacoes_enumera (comSinal : Bool) (chamadas : List (CStr × CStr))
    (Tc : HashTable) (hrun : inserirHashSeq comSinal chamadas = some Tc) :
    (∀ T : HashTable, listarAssociacoes T = T.entradas.map (fun e => linhaDe e.2) ∧
        (∀ r s, (r, s) ∈ T.entradas ↔ T.entrada r = some s) ∧
        T.entradas.Pairwise (fun a b => a.1.1 < b.1.1 ∨ (a.1.1 = b.1.1 ∧ a.1.2 < b.1.2))) ∧
      (∀ r s, Tc.entrada r = some s →
        linhaDe s = (s.nome, (pistasDe chamadas s.nome).length,
          (pistasDe chamadas s.nome).map some)) ∧
      ((listarAssociacoes Tc).map (fun x => x.1)).Nodup ∧
      (∀ n, n ∈ (listarAssociacoes Tc).map (fun x => x.1) ↔
        n ∈ chamadas.map (fun c => c.2)) ∧
      (∀ i j k a b, Tc.entrada (i, j) = some a → Tc.entrada (i, k) = some b → j < k →
        criadoEm chamadas b.nome < criadoEm chamadas a.nome) := by
  obtain ⟨h1, h2, h3⟩ := tabelaOk_inserirHashSeq comSinal chamadas Tc hrun
  have hnomes : (listarAssociacoes Tc).map (fun x => x.1) =
      Tc.entradas.map (fun e => e.2.nome) := by
    rw [listarAssociacoes_eq_map, List.map_map]
    rfl
  refine ⟨fun T => ⟨listarAssociacoes_eq_map T, mem_entradas T, pairwise_entradas T⟩,
    ?_, ?_, ?_, ?_⟩
  · intro r s hr
    exact linhaDe_of_guarda s _ (h1 r.1 s (mem_bucket_of_entrada _ r s hr)).2.2
  · rw [hnomes]
    exact nodup_nomes_entradas comSinal chamadas Tc hrun
  · intro n
    rw [hnomes, List.mem_map]
    constructor
    · rintro ⟨⟨r, s⟩, hm, rfl⟩
      exact (h1 r.1 s (mem_bucket_of_entrada _ r s ((mem_entradas _ r s).1 hm))).2.1
    · intro hn
      obtain ⟨s, hs, hsn⟩ := h3 n hn
      obtain ⟨j, hj⟩ := List.mem_iff_getElem?.1 hs
      exact ⟨((hashNome comSinal n, j), s),
        (mem_entradas _ (hashNome comSinal n, j) s).2 hj, hsn⟩
  · intro i j k a b ha hb hjk
    exact criadoEm_posicao comSinal chamadas Tc hrun i j k a b ha hb hjk

theorem listarAssociacoes_enumera_witness :
    inserirHashSeq true empate = some tabelaEmpate ∧
      listarAssociacoes tabelaEmpate =
        [(sMarta, 1, [some sPegadasEntrada]), (sMaria, 1, [some sLivros])] ∧
      criadoEm empate sMaria < criadoEm empate sMarta :=
  ⟨by decide, by decide,
    (listarAssociacoes_enumera true empate tabelaEmpate (by decide)).2.2.2.2 12 0 1
      ⟨sMarta, [some sPegadasEntrada, none], 1, 2⟩ ⟨sMaria, [some sLivros, none], 1, 2⟩
      (by decide) (by decide) (by decide)⟩

/-! ## Growth of the table, placement of the entries, array bounds -/

/-- C13, as the code has it: a call of `inserirHash` on a well-formed table in which the
entry of the given name, if there is one, holds fewer than `2 ^ 30` clues has a resulting
table and only adds. Every entry present before is present after under the same name; an
entry with another name is the same record as before; the entry of the given name keeps its
clues, in order, with the given clue added at the end, and its count grows by one. After the
call the given name has an entry whose last clue is the given one. -/
theorem inserirHash_so_cresce (comSinal : Bool) (T : HashTable) (pista nome : CStr)
    (hT : T.bemFormada comSinal)
    (hlim : ∀ r s, T.entrada r = some s → s.nome = nome → s.contPistas < 2 ^ 30) :
    ∃ T1, inserirHash comSinal T pista nome = some T1 ∧
      (∀ r s, T.entrada r = some s →
        ∃ r1 s1, T1.entrada r1 = some s1 ∧ s1.nome = s.nome ∧
          (s.nome ≠ nome → s1 = s) ∧
          (s.nome = nome →
            s1.pistas.take s1.contPistas = s.pistas.take s.contPistas ++ [some pista] ∧
              s1.contPistas = s.contPistas + 1)) ∧
      (∃ r s anteriores, T1.entrada r = some s ∧ s.nome = nome ∧
        s.pistas.take s.contPistas = anteriores ++ [some pista]) := by
  obtain ⟨T1, h1⟩ := inserirHash_definido comSinal T pista nome hT (by
    intro s hs hsn
    obtain ⟨j, hj⟩ := entrada_of_mem_bucket T _ s hs
    exact hlim _ s hj hsn)
  refine ⟨T1, h1, ?_⟩
  rcases inserirHash_some comSinal T T1 pista nome hT h1 with
    ⟨s0, s1, hs0, hs0n, hadd, hbk⟩ | ⟨hno, hbk⟩
  · obtain ⟨j0, hj0⟩ := entrada_of_mem_bucket T _ s0 hs0
    obtain ⟨L, hL⟩ := (hT.1 _ s0 hs0).2
    have hent : ∀ r s, T.entrada r = some s →
        T1.entrada r = some (if s.nome = nome then s1 else s) := by
      intro r s hr
      unfold HashTable.entrada at hr ⊢
      rw [hbk r.1, List.getElem?_map, hr]
      rfl
    have hs1n : s1.nome = nome := by
      rw [nome_adicionarPistaASuspeito s0 s1 pista hadd]; exact hs0n
    constructor
    · intro r s hr
      refine ⟨r, _, hent r s hr, ?_, ?_, ?_⟩
      · split_ifs with hx
        · rw [hs1n, hx]
        · rfl
      · intro hne
        rw [if_neg hne]
      · intro heq
        rw [if_pos heq]
        have hs : s = s0 :=
          (entrada_unica_bf comSinal T hT r _ s s0 hr hj0 (by rw [heq, hs0n])).2
        rw [hs]
        exact ⟨take_adicionarPistaASuspeito s0 s1 L pista hL hadd,
          contPistas_adicionarPistaASuspeito s0 s1 pista hadd⟩
    · have := hent _ s0 hj0
      rw [if_pos hs0n] at this
      exact ⟨_, s1, s0.pistas.take s0.contPistas, this, hs1n,
        take_adicionarPistaASuspeito s0 s1 L pista hL hadd⟩
  · constructor
    · intro r s hr
      have hmem := mem_bucket_of_entrada _ r s hr
      have hne : s.nome ≠ nome := by
        intro e
        apply hno s _ e
        rw [← e, (hT.1 r.1 s hmem).1]
        exact hmem
      obtain ⟨i, j⟩ := r
      unfold HashTable.entrada at hr
      simp only at hr
      by_cases hi : i = hashNome comSinal nome
      · refine ⟨(i, j + 1), s, ?_, rfl, fun _ => rfl, fun e => absurd e hne⟩
        unfold HashTable.entrada
        simp only
        rw [hbk i, if_pos hi, List.getElem?_cons_succ, ← hi]
        exact hr
      · refine ⟨(i, j), s, ?_, rfl, fun _ => rfl, fun e => absurd e hne⟩
        unfold HashTable.entrada
        simp only
        rw [hbk i, if_neg hi]
        exact hr
    · refine ⟨(hashNome comSinal nome, 0), Suspeito.novo nome pista, [], ?_, rfl, rfl⟩
      unfold HashTable.entrada
      simp only
      rw [hbk, if_pos rfl, List.getElem?_cons_zero]

theorem inserirHash_so_cresce_witness :
    ∃ T1, inserirHash true tabelaCenario sCarta sMaria = some T1 ∧
      (∀ r s, tabelaCenario.entrada r = some s →
        ∃ r1 s1, T1.entrada r1 = some s1 ∧ s1.nome = s.nome ∧
          (s.nome ≠ sMaria → s1 = s) ∧
          (s.nome = sMaria →
            s1.pistas.take s1.contPistas = s.pistas.take s.contPistas ++ [some sCarta] ∧
              s1.contPistas = s.contPistas + 1)) ∧
      (∃ r s anteriores, T1.entrada r = some s ∧ s.nome = sMaria ∧
        s.pistas.take s.contPistas = anteriores ++ [some sCarta]) :=
  inserirHash_so_cresce true tabelaCenario sCarta sMaria
    (bemFormada_inserirHashSeq true cenario tabelaCenario (by decide))
    (fun r s hr _ => by
      have hrun : inserirHashSeq true cenario = some tabelaCenario := by decide
      have hT := tabelaOk_inserirHashSeq true cenario tabelaCenario hrun
      have hg := (hT.1 r.1 s (mem_bucket_of_entrada _ r s hr)).2.2
      rw [guarda_cont s _ hg]
      exact Nat.lt_of_le_of_lt (pistasDe_length_le cenario s.nome) (by decide))

/-- C13 fails as stated: after `2 ^ 30` calls with the clue "Livros deslocados" for Maria
the table is well-formed and Maria's entry has `contPistas = capPistas = 2 ^ 30`; one more
call for Maria doubles `capPistas` beyond the largest `int` and has no resulting table. -/
theorem so_cresce_contraexemplo :
    ∃ T, inserirHashSeq true (List.replicate (2 ^ 30) (sLivros, sMaria)) = some T ∧
      T.bemFormada true ∧ ¬ CresceComoDito true T sLivros sMaria := by
  obtain ⟨T, hrun, hbf, _, hnone⟩ := (replicate_estoura true (2 ^ 30) sLivros sMaria rfl).1
  refine ⟨T, hrun, hbf, ?_⟩
  rintro ⟨T1, h1, _⟩
  rw [hnone] at h1
  exact absurd h1 (by simp)

/-- C18: in a table built from the empty one by `inserirHash` calls every entry is in the
bucket whose index is `hashNome` of its name; two entries with the same name are the same
entry, wherever they are in the table; and for every name a call was made with, the lookup
`buscarSuspeitoBucket` in the bucket of the name finds its entry. -/
theorem entradas_no_bucket_do_nome (comSinal : Bool) (chamadas : List (CStr × CStr))
    (T : HashTable) (hrun : inserirHashSeq comSinal chamadas = some T) :
    (∀ r s, T.entrada r = some s → r.1 = hashNome comSinal s.nome) ∧
      (∀ r1 s1 r2 s2, T.entrada r1 = some s1 → T.entrada r2 = some s2 →
        s1.nome = s2.nome → r1 = r2) ∧
      (∀ n, n ∈ chamadas.map (fun c => c.2) →
        ∃ k s, buscarSuspeitoBucket (T.bucket (hashNome comSinal n)) n = some k ∧
          T.entrada (hashNome comSinal n, k) = some s ∧ s.nome = n) := by
  obtain ⟨h1, h2, h3⟩ := tabelaOk_inserirHashSeq comSinal chamadas T hrun
  refine ⟨?_, ?_, ?_⟩
  · intro r s hr
    exact ((h1 r.1 s (mem_bucket_of_entrada _ r s hr)).1).symm
  · intro r1 s1 r2 s2 hr1 hr2 hn
    exact entrada_unica comSinal chamadas T hrun r1 r2 s1 s2 hr1 hr2 hn
  · intro n hn
    obtain ⟨s, hs, hsn⟩ := h3 n hn
    cases hb : buscarSuspeitoBucket (T.bucket (hashNome comSinal n)) n with
    | none => exact absurd hsn ((buscar_eq_none_iff _ _).1 hb s hs)
    | some k =>
      obtain ⟨s1, hk, hs1⟩ := buscar_some_spec _ n k hb
      exact ⟨k, s1, rfl, hk, hs1⟩

theorem entradas_no_bucket_do_nome_witness :
    inserirHashSeq true cenario = some tabelaCenario ∧
      ∃ k s, buscarSuspeitoBucket (tabelaCenario.bucket (hashNome true sMaria)) sMaria =
          some k ∧
        tabelaCenario.entrada (hashNome true sMaria, k) = some s ∧ s.nome = sMaria :=
  ⟨by decide,
    (entradas_no_bucket_do_nome true cenario tabelaCenario (by decide)).2.2 sMaria
      (by decide)⟩

/-- C20, as the code has it: `hashNome` is below `HASH_SIZE` for every name. In a table
built from the empty one by `inserirHash` calls every entry has `contPistas ≤ capPistas`, a
capacity that is 2 doubled at most 29 times, and an array of `capPistas` slots. For a fresh
entry, and for an entry that holds fewer than `2 ^ 30` clues, the doubling step of
`adicionarPistaASuspeito` has a result in which the write index `contPistas` is strictly
below the capacity of the array, and the slot written reads back the clue. -/
theorem acessos_dentro_dos_limites (comSinal : Bool) (chamadas : List (CStr × CStr))
    (T : HashTable) (hrun : inserirHashSeq comSinal chamadas = some T) :
    (∀ n : CStr, hashNome comSinal n < HASH_SIZE) ∧
      (∀ n : CStr, garantirCapacidade (criarSuspeito n) = some (criarSuspeito n) ∧
        (criarSuspeito n).contPistas < (criarSuspeito n).capPistas ∧
        (criarSuspeito n).pistas.length = (criarSuspeito n).capPistas) ∧
      (∀ r s, T.entrada r = some s →
        s.contPistas ≤ s.capPistas ∧ (∃ k, k ≤ 29 ∧ s.capPistas = 2 * 2 ^ k) ∧
          s.pistas.length = s.capPistas ∧
          (s.contPistas < 2 ^ 30 →
            ∃ s1, garantirCapacidade s = some s1 ∧ s1.contPistas = s.contPistas ∧
              s1.contPistas < s1.capPistas ∧ s1.pistas.length = s1.capPistas ∧
              ∀ pista, ∃ s2, adicionarPistaASuspeito s pista = some s2 ∧
                s2.pistas[s.contPistas]? = some (some pista))) := by
  refine ⟨hashNome_lt comSinal, ?_, ?_⟩
  · intro n
    exact ⟨by simp [garantirCapacidade, criarSuspeito], by simp [criarSuspeito],
      by simp [criarSuspeito]⟩
  · intro r s hr
    have hmem := mem_bucket_of_entrada _ r s hr
    have hg := ((tabelaOk_inserirHashSeq comSinal chamadas T hrun).1 r.1 s hmem).2.2
    refine ⟨hg.2.1, capPistas_dobrada comSinal chamadas T hrun r.1 s hmem, hg.2.2.1, ?_⟩
    intro hlim
    obtain ⟨s2, hadd⟩ := adicionar_definido s sCarta hg.2.1 hlim
    obtain ⟨s1, hgar, _, _⟩ := adicionar_spec s s2 sCarta hadd
    obtain ⟨hlt, hlen, _⟩ := guarda_garantirCapacidade s s1 _ hg hgar
    have hc := (garantirCapacidade_spec s s1 hgar).2.1
    refine ⟨s1, hgar, hc, hlt, hlen, ?_⟩
    intro pista
    obtain ⟨s3, hadd3⟩ := adicionar_definido s pista hg.2.1 hlim
    obtain ⟨s4, hgar4, _, hs3⟩ := adicionar_spec s s3 pista hadd3
    rw [hgar] at hgar4
    cases hgar4
    refine ⟨s3, hadd3, ?_⟩
    rw [hs3]
    simp only
    rw [hc, List.getElem?_set]
    have : s.contPistas < s1.pistas.length := by omega
    simp [this]

theorem acessos_dentro_dos_limites_witness :
    (2 : Nat) ≤ 2 ∧ (∃ k, k ≤ 29 ∧ (2 : Nat) = 2 * 2 ^ k) ∧
      ∃ s1, garantirCapacidade
          ⟨sMaria, [some sPegadasCozinha, some sPegadasEntrada], 2, 2⟩ = some s1 ∧
        s1.contPistas < s1.capPistas := by
  have h := (acessos_dentro_dos_limites true cenario tabelaCenario (by decide)).2.2 (12, 0)
    ⟨sMaria, [some sPegadasCozinha, some sPegadasEntrada], 2, 2⟩ (by decide)
  obtain ⟨s1, hg, _, hlt, _⟩ := h.2.2.2 (by decide)
  exact ⟨h.1, h.2.1, s1, hg, hlt⟩

/-- C20 fails as stated: after `2 ^ 30` calls with the clue "Livros deslocados" for Maria
her entry has `contPistas = capPistas = 2 ^ 30`, and the doubling step of the next
`adicionarPistaASuspeito` overflows `int`: there is no capacity for the write to be below. -/
theorem escrita_dentro_contraexemplo :
    ¬ EscritaSempreDentro true (List.replicate (2 ^ 30) (sLivros, sMaria)) := by
  intro hclaim
  obtain ⟨T, hrun, _, ⟨r, s, hr, _, hgar⟩, _⟩ :=
    (replicate_estoura true (2 ^ 30) sLivros sMaria rfl).1
  obtain ⟨s1, h1, _⟩ := hclaim T hrun r s hr
  rw [hgar] at h1
  exact absurd h1 (by simp)

/-! ## Rooms, exploration and manual entry -/

/-- C14: one step of `explorarSalas`. The choice `'e'` goes to the left room when there is
one, `'d'` to the right room when there is one, `'s'` ends the exploration, and anything
else (a side without a room, another byte) is an invalid move; the loop then goes on from
the same room. The decision only selects the next room: the game state handed on is the one
left by the registration made at the start of the iteration (when that registration has a
defined result). -/
theorem explorarSalas_passo (comSinal : Bool) (pos : Sala) (escolha : Nat) (resto : List Nat)
    (st : Jogo) :
    (escolha = 101 → pos.esq ≠ Sala.nil →
        decidirMovimento pos escolha = Movimento.ir pos.esq) ∧
      (escolha = 100 → pos.dir ≠ Sala.nil →
        decidirMovimento pos escolha = Movimento.ir pos.dir) ∧
      (escolha = 115 → decidirMovimento pos escolha = Movimento.sair) ∧
      (¬ (escolha = 101 ∧ pos.esq ≠ Sala.nil) → ¬ (escolha = 100 ∧ pos.dir ≠ Sala.nil) →
        escolha ≠ 115 → decidirMovimento pos escolha = Movimento.invalido) ∧
      explorarLaco comSinal pos (escolha :: resto) st =
        (match associarPistaSuspeito_porSala comSinal pos.nomeDe st with
          | none => none
          | some st1 =>
            match decidirMovimento pos escolha with
            | Movimento.ir destino => explorarLaco comSinal destino resto st1
            | Movimento.sair => some st1
            | Movimento.invalido => explorarLaco comSinal pos resto st1) := by
  refine ⟨?_, ?_, ?_, ?_, rfl⟩
  · intro h1 h2
    simp [decidirMovimento, h1, h2]
  · intro h1 h2
    simp [decidirMovimento, h1, h2]
  · intro h1
    simp [decidirMovimento, h1]
  · intro h1 h2 h3
    simp only [decidirMovimento, if_neg h1, if_neg h2, if_neg h3]

theorem explorarSalas_passo_witness :
    decidirMovimento mansao 101 = Movimento.ir mansao.esq ∧
      decidirMovimento (criarSala sJardim) 101 = Movimento.invalido :=
  ⟨(explorarSalas_passo true mansao 101 [] jogoInicial).1 rfl (by decide),
    (explorarSalas_passo true (criarSala sJardim) 101 [] jogoInicial).2.2.2.1
      (by decide) (by decide) (by decide)⟩

theorem recuo_eq_replicate (depth : Nat) : recuo depth = List.replicate (2 * depth) espaco := by
  induction depth with
  | zero => rfl
  | succ k ih =>
    have h2 : 2 * (k + 1) = (2 * k + 1) + 1 := by omega
    unfold recuo at ih ⊢
    rw [List.replicate_succ, List.flatten_cons, ih, h2, List.replicate_succ,
      List.replicate_succ]
    rfl

theorem printarMapaRec_eq_map (r : Sala) (depth : Nat) :
    printarMapaRec r depth =
      (r.preordem depth).map (fun x => recuo x.1 ++ ofBytes [45, 32] ++ x.2) := by
  induction r generalizing depth with
  | nil => rfl
  | node n e d ihe ihd => simp [printarMapaRec, Sala.preordem, ihe, ihd]

theorem length_preordem (r : Sala) (depth : Nat) : (r.preordem depth).length = r.numSalas := by
  induction r generalizing depth with
  | nil => rfl
  | node n e d ihe ihd =>
    simp only [Sala.preordem, Sala.numSalas, List.length_cons, List.length_append, ihe, ihd]
    omega

/-- C16: `printarMapaRec` prints the rooms in preorder (room, left subtree, right subtree),
one line per room: two spaces per depth level, then "- " and the name, the root at the
starting depth and every child one level deeper; there are as many lines as rooms. For the
map of `main` the rooms are Hall de Entrada (0), Biblioteca (1), Sotao (2), Escritorio (2),
Cozinha (1), Jardim (2). -/
theorem printarMapaRec_preordem (r : Sala) (depth : Nat) :
    printarMapaRec r depth =
        (r.preordem depth).map
          (fun x => List.replicate (2 * x.1) espaco ++ ofBytes [45, 32] ++ x.2) ∧
      (printarMapaRec r depth).length = r.numSalas ∧
      mansao.preordem 0 =
        [(0, sHall), (1, sBiblioteca), (2, sSotao), (2, sEscritorio), (1, sCozinha),
          (2, sJardim)] ∧
      printarMapaRec mansao 0 =
        [ofBytes [45, 32] ++ sHall,
          ofBytes [32, 32, 45, 32] ++ sBiblioteca,
          ofBytes [32, 32, 32, 32, 45, 32] ++ sSotao,
          ofBytes [32, 32, 32, 32, 45, 32] ++ sEscritorio,
          ofBytes [32, 32, 45, 32] ++ sCozinha,
          ofBytes [32, 32, 32, 32, 45, 32] ++ sJardim] := by
  refine ⟨?_, ?_, by decide, by decide⟩
  · rw [printarMapaRec_eq_map]
    apply List.map_congr_left
    intro x _
    rw [recuo_eq_replicate]
  · rw [printarMapaRec_eq_map, List.length_map, length_preordem]

/-- C17 fails on the code: from the hall, an invalid choice (`'x'`, byte 120) and then `'s'`.
The player entered one room, once, and the clue of the hall is associated with Maria twice:
the registration runs at every iteration of the loop, also when the player has not moved. -/
theorem explorarSalas_registra_de_novo :
    salasVisitadas mansao [120, 115] = [mansao] ∧
      ((explorarSalas true mansao [120, 115] jogoInicial).bind
          (fun st => st.hashTable.entrada (12, 0))).map
          (fun s => (s.nome, s.pistas.take s.contPistas)) =
        some (sMaria, [some sPegadasEntrada, some sPegadasEntrada]) := by
  constructor <;> decide

/-- C15, as the code has it: a manual entry whose clue text is empty leaves the clue tree and
the table as they were. With a clue text that is not empty the clue is inserted into the
clue tree and `inserirHash` is called once with it, for the suspect name that was typed or,
when that name is empty, for "Desconhecido". -/
theorem opcao5_efeito (comSinal : Bool) (linhaPista linhaSuspeito : CStr) (st : Jogo) :
    (cortarLinha linhaPista = [] → opcao5 comSinal linhaPista linhaSuspeito st = some st) ∧
      (cortarLinha linhaPista ≠ [] →
        (cortarLinha linhaSuspeito ≠ [] →
          opcao5 comSinal linhaPista linhaSuspeito st =
            (inserirHash comSinal st.hashTable (cortarLinha linhaPista)
              (cortarLinha linhaSuspeito)).map
              (fun T => { raizPistas := inserirPistaBST st.raizPistas (cortarLinha linhaPista),
                          hashTable := T })) ∧
          (cortarLinha linhaSuspeito = [] →
            opcao5 comSinal linhaPista linhaSuspeito st =
              (inserirHash comSinal st.hashTable (cortarLinha linhaPista) sDesconhecido).map
                (fun T =>
                  { raizPistas := inserirPistaBST st.raizPistas (cortarLinha linhaPista),
                    hashTable := T }))) := by
  constructor
  · intro h
    simp [opcao5, h]
  · intro h
    have hpos : (cortarLinha linhaPista).length > 0 := List.length_pos.2 h
    refine ⟨?_, ?_⟩
    · intro hs
      simp only [opcao5, hpos, if_true, registrar, hs, ne_eq, not_false_eq_true]
    · intro hs
      simp only [opcao5, hpos, if_true, registrar, hs, ne_eq, not_true_eq_false, if_false]

theorem opcao5_efeito_witness :
    opcao5 true (ofBytes [10]) (sMaria ++ ofBytes [10]) jogoInicial = some jogoInicial ∧
      opcao5 true (sCarta ++ ofBytes [10]) (ofBytes [10]) jogoInicial =
        (inserirHash true jogoInicial.hashTable (cortarLinha (sCarta ++ ofBytes [10]))
          sDesconhecido).map
          (fun T =>
            { raizPistas := inserirPistaBST jogoInicial.raizPistas
                (cortarLinha (sCarta ++ ofBytes [10])),
              hashTable := T }) :=
  ⟨(opcao5_efeito true (ofBytes [10]) (sMaria ++ ofBytes [10]) jogoInicial).1 (by decide),
    ((opcao5_efeito true (sCarta ++ ofBytes [10]) (ofBytes [10]) jogoInicial).2
      (by decide)).2 (by decide)⟩

/-- C15 fails as stated: with the clue "Carta rasgada encontrada" and an empty suspect name
the association is not made for the empty name; it goes to "Desconhecido". -/
theorem opcao5_contraexemplo :
    ¬ EntradaManualComoDita true (sCarta ++ ofBytes [10]) (ofBytes [10]) jogoInicial := by
  unfold EntradaManualComoDita
  decide

theorem aplicarEvento_eq (comSinal : Bool) (st : Jogo) (ev : Evento) :
    aplicarEvento comSinal st ev =
      match chamadaDe ev with
      | none => some st
      | some c => registrar comSinal st c.1 c.2 := by
  cases ev with
  | sala nome =>
    simp only [aplicarEvento, associarPistaSuspeito_porSala, chamadaDe]
    split_ifs <;> rfl
  | manual a b =>
    simp only [aplicarEvento, opcao5, chamadaDe]
    split_ifs <;> rfl

theorem inserirPistas_append (t : Pista) (xs : List CStr) (x : CStr) :
    inserirPistas t (xs ++ [x]) = inserirPistaBST (inserirPistas t xs) x := by
  simp [inserirPistas, List.foldl_append]

theorem aplicarDesde_append (comSinal : Bool) (st : Jogo) (evs : List Evento) (ev : Evento) :
    aplicarDesde comSinal st (evs ++ [ev]) =
      (aplicarDesde comSinal st evs).bind (fun st1 => aplicarEvento comSinal st1 ev) := by
  induction evs generalizing st with
  | nil =>
    simp only [List.nil_append, aplicarDesde, Option.some_bind]
    cases aplicarEvento comSinal st ev <;> rfl
  | cons a evs ih =>
    simp only [List.cons_append, aplicarDesde]
    cases aplicarEvento comSinal st a with
    | none => rfl
    | some st1 => exact ih st1

theorem aplicarEventos_eq (comSinal : Bool) (eventos : List Evento) :
    aplicarEventos comSinal eventos =
      (inserirHashSeq comSinal (eventos.filterMap chamadaDe)).map
        (fun T =>
          { raizPistas := inserirPistas Pista.nil
              ((eventos.filterMap chamadaDe).map (fun c => c.1)),
            hashTable := T }) := by
  induction eventos using List.reverseRecOn with
  | nil => rfl
  | append_singleton evs ev ih =>
    have hstep : aplicarEventos comSinal (evs ++ [ev]) =
        (aplicarEventos comSinal evs).bind (fun st1 => aplicarEvento comSinal st1 ev) :=
      aplicarDesde_append comSinal jogoInicial evs ev
    rw [hstep, ih, List.filterMap_append]
    cases hc : chamadaDe ev with
    | none =>
      simp only [List.filterMap_cons, hc, List.filterMap_nil, List.append_nil]
      cases inserirHashSeq comSinal (List.filterMap chamadaDe evs) with
      | none => rfl
      | some T0 =>
        simp only [Option.map_some', Option.some_bind, aplicarEvento_eq, hc]
    | some c =>
      obtain ⟨p, n⟩ := c
      simp only [List.filterMap_cons, hc, List.filterMap_nil]
      unfold inserirHashSeq
      rw [inserirHashDesde_append]
      cases inserirHashDesde comSinal tabelaVazia (List.filterMap chamadaDe evs) with
      | none => rfl
      | some T0 =>
        simp only [Option.map_some', Option.some_bind, aplicarEvento_eq, hc, registrar,
          List.map_append, List.map_cons, List.map_nil, inserirPistas_append]

theorem mem_pistasDe (l : List (CStr × CStr)) (n x : CStr) :
    x ∈ pistasDe l n ↔ (x, n) ∈ l := by
  unfold pistasDe
  simp only [List.mem_map, List.mem_filter, decide_eq_true_eq]
  constructor
  · rintro ⟨⟨a, b⟩, ⟨hm, hb⟩, ha⟩
    simp only at hb ha
    subst hb ha
    exact hm
  · intro h
    exact ⟨(x, n), ⟨h, rfl⟩, rfl⟩

theorem pistas_da_tabela (comSinal : Bool) (l : List (CStr × CStr)) (T : HashTable)
    (hrun : inserirHashSeq comSinal l = some T) (x : CStr) :
    (∃ r s, T.entrada r = some s ∧ some x ∈ s.pistas.take s.contPistas) ↔
      x ∈ l.map (fun c => c.1) := by
  obtain ⟨h1, _, h3⟩ := tabelaOk_inserirHashSeq comSinal l T hrun
  constructor
  · rintro ⟨r, s, hr, hx⟩
    have hg := (h1 r.1 s (mem_bucket_of_entrada _ r s hr)).2.2.2.2.2
    rw [hg, List.mem_map] at hx
    obtain ⟨y, hy, hyx⟩ := hx
    cases hyx
    exact List.mem_map.2 ⟨(x, s.nome), (mem_pistasDe l s.nome x).1 hy, rfl⟩
  · intro hx
    obtain ⟨⟨p, n⟩, hm, hp⟩ := List.mem_map.1 hx
    simp only at hp
    subst hp
    obtain ⟨s, hs, hsn⟩ := h3 n (List.mem_map.2 ⟨(p, n), hm, rfl⟩)
    obtain ⟨j, hj⟩ := List.mem_iff_getElem?.1 hs
    refine ⟨(hashNome comSinal n, j), s, hj, ?_⟩
    rw [(h1 _ s hs).2.2.2.2.2, hsn]
    exact List.mem_map_of_mem some ((mem_pistasDe l n p).2 hm)

/-- C19: in every state reached from the initial state by discovery events (entering a room,
manual entry) a text is stored in the clue tree exactly when it is among the clues of some
suspect of the table. -/
theorem pistas_e_suspeitos_consistentes (comSinal : Bool) (eventos : List Evento) (st : Jogo)
    (hrun : aplicarEventos comSinal eventos = some st) (x : CStr) :
    x ∈ st.raizPistas.textos ↔
      ∃ r s, st.hashTable.entrada r = some s ∧ some x ∈ s.pistas.take s.contPistas := by
  rw [aplicarEventos_eq] at hrun
  obtain ⟨T, hT, hst⟩ := Option.map_eq_some'.1 hrun
  rw [← hst]
  simp only
  rw [pistas_da_tabela comSinal _ T hT, mem_textos_inserirPistas]
  simp [Pista.textos]

theorem pistas_e_suspeitos_consistentes_witness :
    ∃ st, aplicarEventos true
        [Evento.sala sHall, Evento.manual (sCarta ++ ofBytes [10]) (ofBytes [10])] = some st ∧
      (sCarta ∈ st.raizPistas.textos ↔
        ∃ r s, st.hashTable.entrada r = some s ∧ some sCarta ∈ s.pistas.take s.contPistas) := by
  cases hq : aplicarEventos true
      [Evento.sala sHall, Evento.manual (sCarta ++ ofBytes [10]) (ofBytes [10])] with
  | none => exact absurd hq (by decide)
  | some st => exact ⟨st, rfl, pistas_e_suspeitos_consistentes true _ st hq sCarta⟩

end DetectiveQuest
